import Mathlib

/-!
Verification of the core of the datadriven golden-file test harness
(cockroachdb/datadriven): the directive-line tokenizer (line_parser.go),
the block reader (test_data_reader.go), the rewrite serialization, and the
reflective driver dispatch (driver.go).

Lines and Go strings are embedded as lists of characters; a file is a list
of lines (the line scanner splits the byte stream on newlines and the code
under scrutiny only ever consumes whole lines).
-/

namespace Datadriven

/-- A Go string, modelled as its list of characters. -/
abbrev GoStr := List Char

/-- Go `unicode.IsSpace`: the Unicode White_Space property, written out as
the finite table of code points Go uses (TAB LF VT FF CR SPACE NEL NBSP,
OGHAM SPACE MARK, EN QUAD .. HAIR SPACE, LINE/PARAGRAPH SEPARATOR, NARROW
NBSP, MEDIUM MATHEMATICAL SPACE, IDEOGRAPHIC SPACE). -/
def goIsSpace (c : Char) : Bool :=
  c.toNat == 32 || (9 ≤ c.toNat && c.toNat ≤ 13) ||
  c.toNat == 0x85 || c.toNat == 0xA0 || c.toNat == 0x1680 ||
  (0x2000 ≤ c.toNat && c.toNat ≤ 0x200A) || c.toNat == 0x2028 ||
  c.toNat == 0x2029 || c.toNat == 0x202F || c.toNat == 0x205F ||
  c.toNat == 0x3000

/-- Go `strings.TrimSpace`: drop White_Space characters from both ends. -/
def trimSpace (l : GoStr) : GoStr :=
  ((l.dropWhile goIsSpace).reverse.dropWhile goIsSpace).reverse

/-- The length in bytes of the UTF-8 encoding of a string; Go `len(s)`. -/
def utf8Len (l : GoStr) : Nat := (l.map Char.utf8Size).sum

/-- Character class `[-a-zA-Z0-9/_,\.]` of `splitDirectivesRE` (the
identifier / bare-argument class), by code point: letters, digits, and
`-` 45, `,` 44, `.` 46, `/` 47, `_` 95. -/
def isIdentCh (c : Char) : Bool :=
  (65 ≤ c.toNat && c.toNat ≤ 90) || (97 ≤ c.toNat && c.toNat ≤ 122) ||
  (48 ≤ c.toNat && c.toNat ≤ 57) ||
  (44 ≤ c.toNat && c.toNat ≤ 47) || c.toNat == 45 || c.toNat == 95

/-- Character class `[-a-zA-Z0-9_@=+/,\.]` of `splitDirectivesRE` (the
unparenthesized-value class), by code point: letters, digits, and
`+` 43, `,` 44, `-` 45, `.` 46, `/` 47, `=` 61, `@` 64, `_` 95. -/
def isValCh (c : Char) : Bool :=
  (65 ≤ c.toNat && c.toNat ≤ 90) || (97 ≤ c.toNat && c.toNat ≤ 122) ||
  (48 ≤ c.toNat && c.toNat ≤ 57) ||
  (43 ≤ c.toNat && c.toNat ≤ 47) || c.toNat == 61 || c.toNat == 64 ||
  c.toNat == 95

/-- The space character class of the regex (a literal space; tabs are not
matched). -/
def spaceCh (c : Char) : Bool := c == ' '

/-- The `=\([^)]*\)( |$)` alternative of the regex, matched after `key=`
when a `(` follows the `=`: `[^)]*` stops at the first `)`, which must be
followed by a space or the end of the line. -/
def afterParen (id r4 : GoStr) : Option (GoStr × GoStr) :=
  match r4.dropWhile (fun c => c != ')') with
  | ')' :: [] =>
    some (id ++ '=' :: '(' :: r4.takeWhile (fun c => c != ')') ++ [')'], [])
  | ')' :: ' ' :: r7 =>
    some (id ++ '=' :: '(' :: r4.takeWhile (fun c => c != ')') ++ [')', ' '],
      r7)
  | _ => none

/-- The `=[-a-zA-Z0-9_@=+/,\.]*( |$)` alternative of the regex, matched
after `key=`: a maximal run of value-class characters followed by a space
or the end of the line. -/
def afterVal (id r3 : GoStr) : Option (GoStr × GoStr) :=
  match r3.dropWhile isValCh with
  | [] => some (id ++ '=' :: r3.takeWhile isValCh, [])
  | ' ' :: r5 => some (id ++ '=' :: r3.takeWhile isValCh ++ [' '], r5)
  | _ => none

/-- Dispatch between the two `=`-alternatives: `(` right after the `=`
selects the parenthesized-list alternative (the plain-value alternative
cannot match there, since `(` is neither in the value class nor a
separator). -/
def afterEq (id r3 : GoStr) : Option (GoStr × GoStr) :=
  match r3 with
  | [] => afterVal id []
  | c :: r4 => if c = '(' then afterParen id r4 else afterVal id (c :: r4)

/-- The part of the regex after the identifier: the alternation
`(|=[-a-zA-Z0-9_@=+/,\.]*|=\([^)]*\))` followed by `( |$)`.  Returns the
matched body (identifier included) and the remaining input.  The
alternatives are tried in order (empty, `=value`, `=(list)`); the
backtracking search of the regex engine is equivalent to this
deterministic scan. -/
def findTokCore (id : GoStr) : GoStr → Option (GoStr × GoStr)
  | [] => some (id, [])
  | c :: r3 =>
    if c = ' ' then some (id ++ [' '], r3)
    else if c = '=' then afterEq id r3
    else none

/-- `splitDirectivesRE.FindString` from line_parser.go: the leftmost-first
(anchored) match of
`^ *[-a-zA-Z0-9/_,\.]+(|=[-a-zA-Z0-9_@=+/,\.]*|=\([^)]*\))( |$)`
against `l`, returned as `(matched, rest)`. -/
def findTok (l : GoStr) : Option (GoStr × GoStr) :=
  if ((l.dropWhile spaceCh).takeWhile isIdentCh).isEmpty then none
  else
    match findTokCore ((l.dropWhile spaceCh).takeWhile isIdentCh)
        ((l.dropWhile spaceCh).dropWhile isIdentCh) with
    | none => none
    | some (body, rest) => some (l.takeWhile spaceCh ++ body, rest)

/-- The error value of `splitDirectives`: `errors.Newf("cannot parse
directive at column %d: %s", column, origLine)`, kept structured. -/
structure ParseErr where
  column : Nat
  line : GoStr
deriving DecidableEq

/-- The rendered message of a `ParseErr`. -/
def parseErrMsg (e : ParseErr) : GoStr :=
  ("cannot parse directive at column ").data ++ Nat.toDigits 10 e.column ++
    (": ").data ++ e.line

/-- The loop of `splitDirectives` (line_parser.go).  `fuel` only bounds the
number of iterations; every matched token consumes at least one character,
so `orig.length + 1` is always enough. -/
def splitLoop : Nat → GoStr → GoStr → Except ParseErr (List GoStr)
  | 0, orig, _ => .error ⟨0, orig⟩
  | fuel + 1, orig, l =>
    if l.isEmpty then .ok []
    else
      match findTok l with
      | none => .error ⟨utf8Len orig - utf8Len l + 1, orig⟩
      | some (str, rest) =>
        (splitLoop fuel orig rest).map (fun res => trimSpace str :: res)

/-- `splitDirectives` from line_parser.go: split a directive line into
tokens, reporting the byte column of the first unmatchable position. -/
def splitDirectives (line : GoStr) : Except ParseErr (List GoStr) :=
  splitLoop (line.length + 1) line line

/-- One `key=value(s)` argument of a directive (datadriven `CmdArg`). -/
structure CmdArg where
  Key : GoStr
  Vals : List GoStr
deriving DecidableEq

/-- Position of the first `=`: Go `strings.IndexByte(key, '=')`, returned as
the split around it.  (`=` is ASCII, so the byte search and the character
search agree.) -/
def splitAtEq : GoStr → Option (GoStr × GoStr)
  | [] => none
  | c :: rest =>
    if c = '=' then some ([], rest)
    else (splitAtEq rest).map (fun p => (c :: p.1, p.2))

/-- Go `strings.Split(s, ",")`; always returns at least one piece. -/
def splitOnComma : GoStr → List GoStr
  | [] => [[]]
  | c :: rest =>
    match splitOnComma rest with
    | [] => [[]]
    | h :: t => if c = ',' then [] :: h :: t else (c :: h) :: t

/-- The argument-processing loop body of `ParseLine` (line_parser.go):
split at the first `=`; a value of byte length more than 2 wrapped in
parentheses is comma-split with each element trimmed, any other value is a
single verbatim element, and an argument without `=` has no values. -/
def parseArg (arg : GoStr) : CmdArg :=
  match splitAtEq arg with
  | none => ⟨arg, []⟩
  | some (key, val) =>
    if 2 < utf8Len val ∧ val.head? = some '(' ∧ val.getLast? = some ')' then
      ⟨key, ((splitOnComma (val.drop 1).dropLast).map trimSpace)⟩
    else ⟨key, [val]⟩

/-- `ParseLine` from line_parser.go: tokenize, take the first token as the
command, parse the remaining tokens as arguments. -/
def ParseLine (line : GoStr) : Except ParseErr (GoStr × List CmdArg) :=
  match splitDirectives line with
  | .error e => .error e
  | .ok [] => .ok ([], [])
  | .ok (c :: fields) => .ok (c, fields.map parseArg)

/-! ## The block reader (test_data_reader.go) -/

/-- The separator token `----`. -/
def sepLine : GoStr := ("----").data

/-- Go `strings.HasSuffix(line, BACKSLASH)`. -/
def endsWithBS (l : GoStr) : Bool := l.getLast? == some '\\'

/-- Go `strings.TrimSuffix(line, BACKSLASH)`. -/
def stripBS (l : GoStr) : GoStr := if endsWithBS l then l.dropLast else l

/-- Go `strings.HasPrefix(line, "#")`, applied to the trimmed line. -/
def isCommentLine (t : GoStr) : Bool := t.head? == some '#'

/-- The contents of a `bytes.Buffer` to which each of `ls` was written by
`fmt.Fprintln`. -/
def unlines (ls : List GoStr) : GoStr := (ls.map (fun l => l ++ ['\n'])).flatten

/-- The line-continuation loop of `Next` (test_data_reader.go): while the
logical line ends in a backslash and another physical line can be scanned,
strip the marker and append a space and the trimmed next line.  Returns the
final logical line, the physical lines consumed (they are emitted), and the
remaining lines. -/
def joinLines : GoStr → List GoStr → GoStr × List GoStr × List GoStr
  | line, [] => (line, [], [])
  | line, l2 :: rest =>
    if endsWithBS line then
      let j := stripBS line ++ ' ' :: trimSpace l2
      let (f, cons, r) := joinLines j rest
      (f, l2 :: cons, r)
    else (line, [], l2 :: rest)

/-- The input-capture loop of `Next`: echo and accumulate lines until a line
exactly equal to `----` is scanned.  Returns the captured lines, whether the
separator was found, and the remaining lines. -/
def readInput : List GoStr → List GoStr × Bool × List GoStr
  | [] => ([], false, [])
  | l :: rest =>
    if l = sepLine then ([], true, rest)
    else
      let (c, s, r) := readInput rest
      (l :: c, s, r)

/-- The `allowBlankLines` loop of `readExpected`: accumulate lines until two
successive `----` lines; a `----` whose scan of the next line fails is
accumulated as content before the loop exits at end of stream. -/
def doubleLoop : List GoStr → GoStr × List GoStr
  | [] => ([], [])
  | [l] => (l ++ ['\n'], [])
  | l :: l2 :: rest =>
    if l = sepLine then
      if l2 = sepLine then ([], rest)
      else
        let (b, r) := doubleLoop rest
        (l ++ '\n' :: l2 ++ '\n' :: b, r)
    else
      let (b, r) := doubleLoop (l2 :: rest)
      (l ++ '\n' :: b, r)

/-- The terminate-on-blank loop of `readExpected`: accumulate lines while
they do not trim to empty; the blank line (already scanned) is consumed. -/
def singleLoop : GoStr → List GoStr → GoStr × List GoStr
  | line, [] => if trimSpace line = [] then ([], []) else (line ++ ['\n'], [])
  | line, l2 :: rest =>
    if trimSpace line = [] then ([], l2 :: rest)
    else
      let (b, r) := singleLoop l2 rest
      (line ++ '\n' :: b, r)

/-- `readExpected` from test_data_reader.go: scan the line after the
separator; if it is itself `----`, blank lines are allowed and the section
ends at two successive `----` lines, otherwise the section ends at the
first blank line. -/
def readExpected (ls : List GoStr) : GoStr × List GoStr :=
  match ls with
  | [] => ([], [])
  | l :: rest => if l = sepLine then doubleLoop rest else singleLoop l rest

/-- One datadriven test case (`TestData`).  The `Pos` field (source name and
line number, used only for diagnostics) is not modelled. -/
structure TestData where
  Cmd : GoStr
  CmdArgs : List CmdArg
  Input : GoStr
  Expected : GoStr
deriving DecidableEq

/-- Result of one `Next` call: a parse error, or the emitted (echoed) lines
together with the record and the remaining lines when a directive was
found. -/
abbrev ReadRes := Except ParseErr (List GoStr × Option (TestData × List GoStr))

/-- Prepend one emitted line to a reader result. -/
def mapEmit (l : GoStr) : ReadRes → ReadRes
  | .error e => .error e
  | .ok (em, o) => .ok (l :: em, o)

/-- Prepend several emitted lines to a reader result. -/
def mapEmitAll (xs : List GoStr) : ReadRes → ReadRes
  | .error e => .error e
  | .ok (em, o) => .ok (xs ++ em, o)

/-- The tail of `Next` once a directive line has been assembled: parse it,
capture the input section, and capture the expected section when the
separator was found.  (`Next` also consults `ParseLine` for the empty-command
check; `ParseLine` is pure, so re-running it here is equivalent to the single
call in the source.) -/
def handleDirective (emitted : List GoStr) (line : GoStr) (rest : List GoStr) :
    ReadRes :=
  match ParseLine line with
  | .error e => .error e
  | .ok (cmd, args) =>
    let (inp, sepFound, rest2) := readInput rest
    let input := trimSpace (unlines inp)
    if sepFound then
      let (expd, rest3) := readExpected rest2
      .ok (emitted ++ inp, some (⟨cmd, args, input, expd⟩, rest3))
    else
      .ok (emitted ++ inp, some (⟨cmd, args, input, []⟩, rest2))

/-- `Next` from test_data_reader.go, fuelled: scan a line, echo it, skip
comments, join continuation lines, skip empty commands, then capture the
record.  Every iteration consumes at least one line, so fuel
`ls.length + 1` always suffices (see `nextRecordF_fuel`). -/
def nextRecordF : Nat → List GoStr → ReadRes
  | 0, _ => .ok ([], none)
  | _ + 1, [] => .ok ([], none)
  | fuel + 1, l :: rest =>
    let t := trimSpace l
    if isCommentLine t then mapEmit l (nextRecordF fuel rest)
    else
      let (line, cons, rest1) := joinLines t rest
      match ParseLine line with
      | .error e => .error e
      | .ok (cmd, _) =>
        if cmd.isEmpty then mapEmitAll (l :: cons) (nextRecordF fuel rest1)
        else handleDirective (l :: cons) line rest1

/-- `Next` from test_data_reader.go. -/
def nextRecord (ls : List GoStr) : ReadRes := nextRecordF (ls.length + 1) ls

/-- The records of a file: each paired with its emitted (echoed) lines. -/
abbrev RecList := List (List GoStr × TestData)

/-- Driving loop over `Next`, fuelled: collect all records with their
emitted lines, plus the lines emitted after the last record. -/
def parseAllF : Nat → List GoStr → Except ParseErr (RecList × List GoStr)
  | 0, _ => .ok ([], [])
  | fuel + 1, ls =>
    match nextRecord ls with
    | .error e => .error e
    | .ok (em, none) => .ok ([], em)
    | .ok (em, some (d, rest)) =>
      match parseAllF fuel rest with
      | .error e => .error e
      | .ok (recs, trail) => .ok ((em, d) :: recs, trail)

/-- Parse a whole file into its records (with emitted lines) and trailing
emitted lines. -/
def parseAll (ls : List GoStr) : Except ParseErr (RecList × List GoStr) :=
  parseAllF (ls.length + 1) ls

/-! ## The rewrite serialization

The code that appends the actual output to the rewrite buffer lives in
datadriven.go (`runTestInternal`), which is not part of the sources under
scrutiny; it is modelled here from the specification. -/

/-- Modelled from the spec: whether the actual output contains a blank
line, which selects the double-separator form. -/
def hasBlankLine (out : List GoStr) : Bool :=
  out.any (fun l => (trimSpace l).isEmpty)

/-- Modelled from the spec: the serialized expected-output section for one
record in rewrite mode (the emission in `runTestInternal`, not under src/).
Actual output containing a blank line uses the double-separator form; empty
actual output collapses to an empty section with no trailing separator
artifacts; otherwise the single-separator form followed by the blank
terminator line. -/
def serializeExpected (out : List GoStr) : List GoStr :=
  if out.isEmpty then [sepLine, []]
  else if hasBlankLine out then sepLine :: sepLine :: (out ++ [sepLine, sepLine])
  else sepLine :: (out ++ [[]])

/-- Modelled from the spec: the rewritten file, with each record's emitted
lines echoed byte-for-byte followed by the serialization of its actual
output, and the trailing emitted lines echoed at the end. -/
def rewriteFile (recs : RecList) (trail : List GoStr) (outs : List (List GoStr)) :
    List GoStr :=
  ((recs.zip outs).map (fun p => p.1.1 ++ serializeExpected p.2)).flatten ++ trail

/-- Parse a file and rewrite it against the given actual outputs. -/
def runRewrite (ls : List GoStr) (outs : List (List GoStr)) :
    Except ParseErr (List GoStr) :=
  (parseAll ls).map (fun p => rewriteFile p.1 p.2 outs)

/-! ## Reflective driver dispatch (driver.go) -/

/-- The outcome of invoking a test function: a returned value, or a panic
recovered at the dispatch boundary (the message carries the `%+v`-formatted
panic value). -/
inductive FuncRes where
  | ok (v : String)
  | panics (msg : String)

/-- One entry of a `DriverMap`: either not a function at all, or a function
with its arity and behaviour. -/
inductive DriverEntry where
  | notFunc
  | fn (numIn numOut : Nat) (body : String → FuncRes)

/-- The behaviour of the caller-supplied `populate` callback: an error, a
panic (message `%+v`-formatted), or successfully populated input and
expected values. -/
inductive PopulateRes where
  | err (msg : String)
  | panics (msg : String)
  | ok (inVal expVal : String)

/-- Go map lookup `m[name]` (first match in the association list). -/
def lookupDriver : List (String × DriverEntry) → String → Option DriverEntry
  | [], _ => none
  | (k, v) :: rest, name => if k = name then some v else lookupDriver rest name

/-- `reflectCall` from driver.go: look the name up, check that the entry is
a function of one argument and one result, run `populate`, invoke the
function, recovering panics from either into a returned error; every error
path returns `nil, nil, nil, err`. -/
def reflectCall (m : List (String × DriverEntry)) (name : String)
    (populate : PopulateRes) :
    Option String × Option String × Option String × Option String :=
  match lookupDriver m name with
  | none => (none, none, none, some ("driver \"" ++ name ++ "\" not found"))
  | some .notFunc => (none, none, none, some "argument is not a function")
  | some (.fn numIn numOut body) =>
    if numOut ≠ 1 ∨ numIn ≠ 1 then
      (none, none, none, some "function does not take and return one value")
    else
      match populate with
      | .err msg => (none, none, none, some msg)
      | .panics msg => (none, none, none, some msg)
      | .ok inVal expVal =>
        match body inVal with
        | .panics msg => (none, none, none, some msg)
        | .ok outVal => (some inVal, some expVal, some outVal, none)

/-! ## Specification-side descriptions

These definitions follow the wording of the specification (not the source);
they exist to be compared against the source-derived definitions above. -/

/-- A line that does not trim to empty (the negation of what the spec calls
a blank line). -/
def nonBlank (l : GoStr) : Bool := !(trimSpace l).isEmpty

/-- The index of the first of two *consecutive* `----` lines, per the
spec's description of the double-separator terminator. -/
def findDoubleSep : List GoStr → Option Nat
  | a :: b :: rest =>
    if a = sepLine ∧ b = sepLine then some 0
    else (findDoubleSep (b :: rest)).map (· + 1)
  | _ => none

/-- The spec's description of expected-output capture: if the line after
the separator is itself `----`, accumulate verbatim (blank lines included)
until the first two consecutive `----` lines (or end of stream); otherwise
accumulate until the first blank line (or end of stream), the blank line
being consumed but not captured. -/
def expectedSpec (ls : List GoStr) : GoStr × List GoStr :=
  match ls with
  | [] => ([], [])
  | l :: rest =>
    if l = sepLine then
      match findDoubleSep rest with
      | some i => (unlines (rest.take i), rest.drop (i + 2))
      | none => (unlines rest, [])
    else
      (unlines ((l :: rest).takeWhile nonBlank),
        ((l :: rest).dropWhile nonBlank).tail)

/-- The directive-token grammar of the spec, parameterized by the
identifier class: a token is a bare identifier, `key=value` with the value
drawn from the value class, or `key=(v1,v2,...)` with the parenthesized
part free of `)` until the closing one. -/
def shapedTokWith (identP : Char → Bool) (t : GoStr) : Bool :=
  !(t.takeWhile identP).isEmpty &&
    ((t.dropWhile identP).isEmpty ||
      ((t.dropWhile identP).head? == some '=' &&
        ((t.dropWhile identP).tail.all isValCh ||
         ((t.dropWhile identP).tail.head? == some '(' &&
          (t.dropWhile identP).tail.getLast? == some ')' &&
          (t.dropWhile identP).tail.tail.dropLast.all (fun c => c != ')')))))

/-- The token grammar with the identifier class the source actually uses
(`[-a-zA-Z0-9/_,\.]`, comma included). -/
def shapedTok : GoStr → Bool := shapedTokWith isIdentCh

/-- The identifier class as the claim states it: `[-a-zA-Z0-9_./]`, with
no comma (code points 45, 46, 47, 95 beside letters and digits). -/
def claimIdentCh (c : Char) : Bool :=
  (65 ≤ c.toNat && c.toNat ≤ 90) || (97 ≤ c.toNat && c.toNat ≤ 122) ||
  (48 ≤ c.toNat && c.toNat ≤ 57) ||
  (45 ≤ c.toNat && c.toNat ≤ 47) || c.toNat == 95

/-- The token grammar exactly as the claim states it. -/
def claimShapedTok : GoStr → Bool := shapedTokWith claimIdentCh

/-- The 1-based character (not byte) column at which tokenization stops,
per the claim's wording; `none` when the whole line tokenizes. -/
def charFailLoop : Nat → Nat → GoStr → Option Nat
  | 0, _, _ => none
  | fuel + 1, consumed, l =>
    if l.isEmpty then none
    else
      match findTok l with
      | none => some (consumed + 1)
      | some (str, rest) => charFailLoop fuel (consumed + str.length) rest

/-- The 1-based character column at which no further valid token can be
matched. -/
def charFailColumn (line : GoStr) : Option Nat :=
  charFailLoop (line.length + 1) 0 line

/-- Per the claim's wording: a value written `key=(...)` (wrapped in
parentheses). -/
def isParenValClaim (v : GoStr) : Bool :=
  v.head? == some '(' && v.getLast? == some ')'

/-- Per the claim's wording: the comma-separated elements inside the
parentheses, each trimmed of surrounding whitespace. -/
def claimParenVals (v : GoStr) : List GoStr :=
  (splitOnComma (v.drop 1).dropLast).map trimSpace

/-! ## Basic lemmas -/

theorem utf8Len_append (a b : GoStr) :
    utf8Len (a ++ b) = utf8Len a + utf8Len b := by
  simp [utf8Len]

theorem utf8Len_pos (a : GoStr) (h : a ≠ []) : 0 < utf8Len a := by
  cases a with
  | nil => exact absurd rfl h
  | cons c r =>
    have := Char.utf8Size_pos c
    simp only [utf8Len, List.map_cons, List.sum_cons]
    omega

theorem takeWhile_append_all {p : Char → Bool} (a b : GoStr)
    (h : ∀ c ∈ a, p c = true) :
    (a ++ b).takeWhile p = a ++ b.takeWhile p := by
  induction a with
  | nil => simp
  | cons c r ih =>
    have hc := h c (by simp)
    simp only [List.cons_append, List.takeWhile_cons_of_pos hc]
    rw [ih (fun x hx => h x (by simp [hx]))]

theorem dropWhile_append_all {p : Char → Bool} (a b : GoStr)
    (h : ∀ c ∈ a, p c = true) :
    (a ++ b).dropWhile p = b.dropWhile p := by
  induction a with
  | nil => simp
  | cons c r ih =>
    have hc := h c (by simp)
    simp only [List.cons_append, List.dropWhile_cons_of_pos hc]
    exact ih (fun x hx => h x (by simp [hx]))

theorem takeWhile_all_self {p : Char → Bool} (a : GoStr)
    (h : ∀ c ∈ a, p c = true) : a.takeWhile p = a := by
  have := takeWhile_append_all (p := p) a [] h
  simpa using this

theorem dropWhile_all_nil {p : Char → Bool} (a : GoStr)
    (h : ∀ c ∈ a, p c = true) : a.dropWhile p = [] := by
  have := dropWhile_append_all (p := p) a [] h
  simpa using this

theorem dropWhile_of_headNot {p : Char → Bool} (l : GoStr)
    (h : ∀ c, l.head? = some c → p c = false) : l.dropWhile p = l := by
  cases l with
  | nil => rfl
  | cons c r =>
    exact List.dropWhile_cons_of_neg (by simp [h c rfl])

theorem spaceCh_isSpace (c : Char) (h : spaceCh c = true) :
    goIsSpace c = true := by
  have : c = ' ' := by simpa [spaceCh] using h
  subst this
  decide

theorem identCh_not_space (c : Char) (h : isIdentCh c = true) :
    goIsSpace c = false := by
  rw [Bool.eq_false_iff]
  intro hs
  unfold isIdentCh at h
  unfold goIsSpace at hs
  simp only [Bool.or_eq_true, Bool.and_eq_true, beq_iff_eq,
    decide_eq_true_eq] at h hs
  omega

theorem valCh_not_space (c : Char) (h : isValCh c = true) :
    goIsSpace c = false := by
  rw [Bool.eq_false_iff]
  intro hs
  unfold isValCh at h
  unfold goIsSpace at hs
  simp only [Bool.or_eq_true, Bool.and_eq_true, beq_iff_eq,
    decide_eq_true_eq] at h hs
  omega

/-- Trimming a string of known shape: leading and trailing space runs are
removed, a core with non-space first and last characters stays. -/
theorem trimSpace_sandwich (sp core tl : GoStr)
    (hsp : ∀ c ∈ sp, goIsSpace c = true) (htl : ∀ c ∈ tl, goIsSpace c = true)
    (hh : ∀ c, core.head? = some c → goIsSpace c = false)
    (hl : ∀ c, core.getLast? = some c → goIsSpace c = false) :
    trimSpace (sp ++ core ++ tl) = core := by
  unfold trimSpace
  rw [List.append_assoc, dropWhile_append_all sp _ hsp]
  cases core with
  | nil =>
    simp only [List.nil_append]
    rw [dropWhile_all_nil tl htl]
    rfl
  | cons c0 core0 =>
    have hc0 : goIsSpace c0 = false := hh c0 rfl
    rw [List.cons_append, List.dropWhile_cons_of_neg (by simp [hc0])]
    rw [← List.cons_append, List.reverse_append]
    rw [dropWhile_append_all _ _ (by
      intro c hc
      exact htl c (List.mem_reverse.mp hc))]
    rw [dropWhile_of_headNot _ (by
      intro c hc
      rw [List.head?_reverse] at hc
      exact hl c hc)]
    exact List.reverse_reverse _

theorem identCh_eq_false : isIdentCh '=' = false := by decide

/-- A bare identifier is a shaped token. -/
theorem shaped_ident (id : GoStr) (hne : id ≠ [])
    (hall : ∀ c ∈ id, isIdentCh c = true) :
    shapedTok id = true := by
  unfold shapedTok shapedTokWith
  rw [takeWhile_all_self id hall, dropWhile_all_nil id hall]
  simp [List.isEmpty_iff, hne]

/-- A `key=value` token is a shaped token. -/
theorem shaped_eqval (id v : GoStr) (hne : id ≠ [])
    (hid : ∀ c ∈ id, isIdentCh c = true) (hv : ∀ c ∈ v, isValCh c = true) :
    shapedTok (id ++ '=' :: v) = true := by
  unfold shapedTok shapedTokWith
  rw [takeWhile_append_all _ _ hid, dropWhile_append_all _ _ hid]
  rw [List.takeWhile_cons_of_neg (by simp [identCh_eq_false]),
    List.dropWhile_cons_of_neg (by simp [identCh_eq_false])]
  simp only [List.append_nil, List.isEmpty_iff, Bool.and_eq_true,
    Bool.not_eq_true', Bool.or_eq_true, List.all_eq_true]
  refine ⟨by simpa [List.isEmpty_iff] using hne, Or.inr ?_⟩
  simp only [List.head?_cons, List.tail_cons, beq_self_eq_true, true_and]
  exact Or.inl hv

/-- A `key=(...)` token is a shaped token. -/
theorem shaped_paren (id inside : GoStr) (hne : id ≠ [])
    (hid : ∀ c ∈ id, isIdentCh c = true)
    (hin : ∀ c ∈ inside, (c != ')') = true) :
    shapedTok (id ++ '=' :: '(' :: (inside ++ [')'])) = true := by
  unfold shapedTok shapedTokWith
  rw [takeWhile_append_all _ _ hid, dropWhile_append_all _ _ hid]
  rw [List.takeWhile_cons_of_neg (by simp [identCh_eq_false]),
    List.dropWhile_cons_of_neg (by simp [identCh_eq_false])]
  have hlast : ('(' :: (inside ++ [')'])).getLast? = some ')' := by
    rw [show '(' :: (inside ++ [')']) = ('(' :: inside) ++ [')'] from rfl]
    exact List.getLast?_concat _
  have hdl : (inside ++ [')']).dropLast = inside := List.dropLast_concat
  simp only [List.append_nil, List.isEmpty_iff, Bool.and_eq_true,
    Bool.not_eq_true', Bool.or_eq_true, List.all_eq_true]
  refine ⟨by simpa [List.isEmpty_iff] using hne, Or.inr ?_⟩
  simp only [List.head?_cons, List.tail_cons, beq_self_eq_true, true_and,
    hlast, hdl]
  refine Or.inr ?_
  intro x hx
  simpa using hin x hx

/-- Structure of a successful `afterVal` match. -/
theorem afterVal_some (id r3 body rest : GoStr)
    (h : afterVal id r3 = some (body, rest)) :
    body ++ rest = id ++ '=' :: r3 ∧
    ∃ tl, body = (id ++ '=' :: r3.takeWhile isValCh) ++ tl ∧
      ∀ c ∈ tl, spaceCh c = true := by
  unfold afterVal at h
  split at h
  · rename_i hdw
    simp only [Option.some.injEq, Prod.mk.injEq] at h
    obtain ⟨rfl, rfl⟩ := h
    have hr3 : r3.takeWhile isValCh = r3 := by
      conv_rhs => rw [← List.takeWhile_append_dropWhile isValCh r3]
      rw [hdw, List.append_nil]
    constructor
    · rw [List.append_nil, hr3]
    · exact ⟨[], by simp, by simp⟩
  · rename_i r5 hdw
    simp only [Option.some.injEq, Prod.mk.injEq] at h
    obtain ⟨rfl, rfl⟩ := h
    have hr3 : r3.takeWhile isValCh ++ (' ' :: r5) = r3 := by
      conv_rhs => rw [← List.takeWhile_append_dropWhile isValCh r3]
      rw [hdw]
    constructor
    · conv_rhs => rw [← hr3]
      simp
    · exact ⟨[' '], by simp, by simp [spaceCh]⟩
  · exact absurd h (by simp)

/-- Structure of a successful `afterParen` match. -/
theorem afterParen_some (id r4 body rest : GoStr)
    (h : afterParen id r4 = some (body, rest)) :
    body ++ rest = id ++ '=' :: '(' :: r4 ∧
    ∃ tl,
      body = (id ++ '=' :: '(' :: (r4.takeWhile (fun c => c != ')') ++ [')']))
          ++ tl ∧
      ∀ c ∈ tl, spaceCh c = true := by
  unfold afterParen at h
  split at h
  · rename_i hdw
    simp only [Option.some.injEq, Prod.mk.injEq] at h
    obtain ⟨rfl, rfl⟩ := h
    have hr4 : r4.takeWhile (fun c => c != ')') ++ [')'] = r4 := by
      conv_rhs => rw [← List.takeWhile_append_dropWhile (fun c => c != ')') r4]
      rw [hdw]
    constructor
    · conv_rhs => rw [← hr4]
      simp
    · exact ⟨[], by simp, by simp⟩
  · rename_i r7 hdw
    simp only [Option.some.injEq, Prod.mk.injEq] at h
    obtain ⟨rfl, rfl⟩ := h
    have hr4 : r4.takeWhile (fun c => c != ')') ++ (')' :: ' ' :: r7) = r4 := by
      conv_rhs => rw [← List.takeWhile_append_dropWhile (fun c => c != ')') r4]
      rw [hdw]
    constructor
    · conv_rhs => rw [← hr4]
      simp
    · exact ⟨[' '], by simp, by simp [spaceCh]⟩
  · exact absurd h (by simp)

/-- Structure of a successful `findTokCore` match: the consumed body plus
the remaining input reassemble the input, and the body is a shaped core
followed by at most one space. -/
theorem findTokCore_some (id r2 body rest : GoStr)
    (h : findTokCore id r2 = some (body, rest)) :
    body ++ rest = id ++ r2 ∧
    ∃ core tl, body = core ++ tl ∧ (∀ c ∈ tl, spaceCh c = true) ∧
      (core = id ∨
       (∃ v, core = id ++ '=' :: v ∧ ∀ c ∈ v, isValCh c = true) ∨
       (∃ inside, core = id ++ '=' :: '(' :: (inside ++ [')']) ∧
         ∀ c ∈ inside, (c != ')') = true)) := by
  cases r2 with
  | nil =>
    simp only [findTokCore, Option.some.injEq, Prod.mk.injEq] at h
    obtain ⟨rfl, rfl⟩ := h
    exact ⟨by simp, id, [], by simp, by simp, Or.inl rfl⟩
  | cons c r3 =>
    simp only [findTokCore] at h
    by_cases hsp : c = ' '
    · rw [if_pos hsp] at h
      simp only [Option.some.injEq, Prod.mk.injEq] at h
      obtain ⟨rfl, rfl⟩ := h
      subst hsp
      exact ⟨by simp, id, [' '], by simp, by simp [spaceCh], Or.inl rfl⟩
    · rw [if_neg hsp] at h
      by_cases heq : c = '='
      · rw [if_pos heq] at h
        subst heq
        cases r3 with
        | nil =>
          simp only [afterEq] at h
          obtain ⟨hdec, tl, hbody, htl⟩ := afterVal_some _ _ _ _ h
          refine ⟨by simpa using hdec, id ++ '=' :: List.takeWhile isValCh [],
            tl, hbody, htl, Or.inr (Or.inl ⟨_, rfl, ?_⟩)⟩
          intro x hx
          exact List.mem_takeWhile_imp hx
        | cons c2 r4 =>
          simp only [afterEq] at h
          by_cases hpar : c2 = '('
          · rw [if_pos hpar] at h
            subst hpar
            obtain ⟨hdec, tl, hbody, htl⟩ := afterParen_some _ _ _ _ h
            refine ⟨hdec, _, tl, hbody, htl, Or.inr (Or.inr ⟨_, rfl, ?_⟩)⟩
            intro x hx
            exact List.mem_takeWhile_imp (p := fun c => c != ')') hx
          · rw [if_neg hpar] at h
            obtain ⟨hdec, tl, hbody, htl⟩ := afterVal_some _ _ _ _ h
            refine ⟨hdec, _, tl, hbody, htl, Or.inr (Or.inl ⟨_, rfl, ?_⟩)⟩
            intro x hx
            exact List.mem_takeWhile_imp hx
      · rw [if_neg heq] at h
        exact absurd h (by simp)

/-- Structure of a successful `findTok` match: the matched string and the
rest reassemble the line, the match is nonempty (so the loop makes
progress), and the trimmed match is a token of the (amended) grammar. -/
theorem findTok_some (l str rest : GoStr) (h : findTok l = some (str, rest)) :
    l = str ++ rest ∧ str ≠ [] ∧ shapedTok (trimSpace str) = true ∧
      rest.length < l.length := by
  unfold findTok at h
  by_cases hid : ((l.dropWhile spaceCh).takeWhile isIdentCh).isEmpty
  · rw [if_pos hid] at h
    exact absurd h (by simp)
  · rw [if_neg hid] at h
    cases hcore : findTokCore ((l.dropWhile spaceCh).takeWhile isIdentCh)
        ((l.dropWhile spaceCh).dropWhile isIdentCh) with
    | none => rw [hcore] at h; exact absurd h (by simp)
    | some p =>
      obtain ⟨body, rst⟩ := p
      rw [hcore] at h
      simp only [Option.some.injEq, Prod.mk.injEq] at h
      obtain ⟨rfl, rfl⟩ := h.symm
      obtain ⟨hdec, core, tl, hbody, htl, hcase⟩ :=
        findTokCore_some _ _ _ _ hcore
      have hid_ne : (l.dropWhile spaceCh).takeWhile isIdentCh ≠ [] := by
        simpa [List.isEmpty_iff] using hid
      have hid_all : ∀ c ∈ (l.dropWhile spaceCh).takeWhile isIdentCh,
          isIdentCh c = true := fun c hc => List.mem_takeWhile_imp hc
      have hsp_all : ∀ c ∈ l.takeWhile spaceCh, spaceCh c = true :=
        fun c hc => List.mem_takeWhile_imp hc
      have hl1 : l = l.takeWhile spaceCh ++ l.dropWhile spaceCh :=
        (List.takeWhile_append_dropWhile _ _).symm
      have hr1 : l.dropWhile spaceCh =
          (l.dropWhile spaceCh).takeWhile isIdentCh ++
            (l.dropWhile spaceCh).dropWhile isIdentCh :=
        (List.takeWhile_append_dropWhile _ _).symm
      have hcore_ne : core ≠ [] := by
        rcases hcase with rfl | ⟨v, rfl, _⟩ | ⟨inside, rfl, _⟩
        · exact hid_ne
        · simp [hid_ne]
        · simp [hid_ne]
      have hcore_head : ∀ c, core.head? = some c → isIdentCh c = true := by
        intro c hc
        have hh : core.head? = ((l.dropWhile spaceCh).takeWhile isIdentCh).head? := by
          rcases hcase with rfl | ⟨v, rfl, _⟩ | ⟨inside, rfl, _⟩
          · rfl
          · rw [List.head?_append]
            cases hx : ((l.dropWhile spaceCh).takeWhile isIdentCh).head? with
            | none => exact absurd (List.head?_eq_none_iff.mp hx) hid_ne
            | some d => rfl
          · rw [List.head?_append]
            cases hx : ((l.dropWhile spaceCh).takeWhile isIdentCh).head? with
            | none => exact absurd (List.head?_eq_none_iff.mp hx) hid_ne
            | some d => rfl
        rw [hh] at hc
        exact hid_all c (List.mem_of_mem_head? hc)
      have hcore_last : ∀ c, core.getLast? = some c → goIsSpace c = false := by
        intro c hc
        rcases hcase with rfl | ⟨v, hco, hv⟩ | ⟨inside, hco, _⟩
        · exact identCh_not_space c
            (hid_all c (List.mem_of_mem_getLast? hc))
        · rw [hco, List.getLast?_append_of_ne_nil _ (by simp)] at hc
          rcases List.mem_cons.mp (List.mem_of_mem_getLast? hc) with rfl | hmemv
          · decide
          · exact valCh_not_space c (hv c hmemv)
        · rw [hco, List.getLast?_append_of_ne_nil _ (by simp)] at hc
          rw [show ('=' :: '(' :: (inside ++ [')'])) =
            ('=' :: '(' :: inside) ++ [')'] by simp] at hc
          rw [List.getLast?_concat] at hc
          obtain rfl : (')' : Char) = c := by simpa using hc
          decide
      have htrim : trimSpace (l.takeWhile spaceCh ++ body) = core := by
        rw [hbody]
        have := trimSpace_sandwich (l.takeWhile spaceCh) core tl
          (fun c hc => spaceCh_isSpace c (hsp_all c hc))
          (fun c hc => spaceCh_isSpace c (htl c hc))
          (fun c hc => identCh_not_space c (hcore_head c hc))
          hcore_last
        simpa [List.append_assoc] using this
      have hshape : shapedTok core = true := by
        rcases hcase with rfl | ⟨v, rfl, hv⟩ | ⟨inside, rfl, hin⟩
        · exact shaped_ident _ hid_ne hid_all
        · exact shaped_eqval _ _ hid_ne hid_all hv
        · exact shaped_paren _ _ hid_ne hid_all hin
      have hlsplit : l = (l.takeWhile spaceCh ++ body) ++ rst := by
        conv_lhs => rw [hl1, hr1]
        rw [← hdec]
        simp [List.append_assoc]
      have hbody_ne : l.takeWhile spaceCh ++ body ≠ [] := by
        rcases hcase with rfl | ⟨v, hco, _⟩ | ⟨inside, hco, _⟩ <;>
          simp [hbody, hid_ne] <;> simp [hco, hid_ne]
      refine ⟨hlsplit, hbody_ne, by rw [htrim]; exact hshape, ?_⟩
      rw [hlsplit]
      have : 0 < (l.takeWhile spaceCh ++ body).length := by
        cases hx : l.takeWhile spaceCh ++ body with
        | nil => exact absurd hx hbody_ne
        | cons a b => simp
      simp only [List.length_append] at this ⊢
      omega

/-- Every token produced by the tokenizer loop fits the (amended)
grammar. -/
theorem splitLoop_ok_shaped (fuel : Nat) :
    ∀ orig l toks, splitLoop fuel orig l = .ok toks →
      ∀ t ∈ toks, shapedTok t = true := by
  induction fuel with
  | zero => intro orig l toks h; exact absurd h (by simp [splitLoop])
  | succ fuel ih =>
    intro orig l toks h
    rw [splitLoop] at h
    by_cases hl : l.isEmpty
    · rw [if_pos hl] at h
      simp only [Except.ok.injEq] at h
      subst h
      intro t ht
      exact absurd ht (by simp)
    · rw [if_neg hl] at h
      cases hft : findTok l with
      | none => rw [hft] at h; exact absurd h (by simp)
      | some p =>
        obtain ⟨str, rest⟩ := p
        rw [hft] at h
        dsimp only at h
        cases hin : splitLoop fuel orig rest with
        | error e => rw [hin] at h; exact absurd h (by simp [Except.map])
        | ok toks0 =>
          rw [hin] at h
          simp only [Except.map, Except.ok.injEq] at h
          subst h
          intro t ht
          rcases List.mem_cons.mp ht with rfl | ht0
          · exact (findTok_some l str rest hft).2.2.1
          · exact ih orig rest toks0 hin t ht0

/-- A tokenizer-loop error reports the original line and the 1-based byte
column of a position from which no further token can be matched. -/
theorem splitLoop_error_spec (fuel : Nat) :
    ∀ orig l pre e, orig = pre ++ l → l.length < fuel →
      splitLoop fuel orig l = .error e →
      e.line = orig ∧ ∃ p2 r2, orig = p2 ++ r2 ∧ r2 ≠ [] ∧
        findTok r2 = none ∧ e.column = utf8Len p2 + 1 := by
  induction fuel with
  | zero => intro orig l pre e hdecomp hlen h; omega
  | succ fuel ih =>
    intro orig l pre e hdecomp hlen h
    rw [splitLoop] at h
    by_cases hl : l.isEmpty
    · rw [if_pos hl] at h
      exact absurd h (by simp)
    · rw [if_neg hl] at h
      cases hft : findTok l with
      | none =>
        rw [hft] at h
        simp only [Except.error.injEq] at h
        subst h
        refine ⟨rfl, pre, l, hdecomp, by simpa [List.isEmpty_iff] using hl,
          hft, ?_⟩
        rw [hdecomp, utf8Len_append]
        dsimp only
        omega
      | some p =>
        obtain ⟨str, rest⟩ := p
        rw [hft] at h
        dsimp only at h
        obtain ⟨hsplit, hne, _, hlt⟩ := findTok_some l str rest hft
        cases hin : splitLoop fuel orig rest with
        | ok toks0 => rw [hin] at h; exact absurd h (by simp [Except.map])
        | error e0 =>
          rw [hin] at h
          simp only [Except.map, Except.error.injEq] at h
          subst h
          exact ih orig rest (pre ++ str) e0
            (by rw [hdecomp, hsplit, List.append_assoc]) (by omega) hin

/-- Wrapper: tokens of a successfully tokenized line fit the grammar. -/
theorem splitDirectives_ok_shaped (line : GoStr) (toks : List GoStr)
    (h : splitDirectives line = .ok toks) :
    ∀ t ∈ toks, shapedTok t = true :=
  splitLoop_ok_shaped (line.length + 1) line line toks h

/-- Wrapper: a tokenization error reports the original line and the byte
column of the failure position. -/
theorem splitDirectives_error_spec (line : GoStr) (e : ParseErr)
    (h : splitDirectives line = .error e) :
    e.line = line ∧ ∃ p2 r2, line = p2 ++ r2 ∧ r2 ≠ [] ∧
      findTok r2 = none ∧ e.column = utf8Len p2 + 1 :=
  splitLoop_error_spec (line.length + 1) line line [] e (by simp)
    (by omega) h

/-- `strings.IndexByte` finds the first `=`: splitting a key free of `=`
from the value. -/
theorem splitAtEq_append (k v : GoStr) (hk : '=' ∉ k) :
    splitAtEq (k ++ '=' :: v) = some (k, v) := by
  induction k with
  | nil => simp [splitAtEq]
  | cons c r ihk =>
    have hc : c ≠ '=' := fun hc0 => hk (by simp [hc0])
    rw [List.cons_append]
    rw [show splitAtEq (c :: (r ++ '=' :: v)) =
      if c = '=' then some ([], r ++ '=' :: v)
      else (splitAtEq (r ++ '=' :: v)).map (fun p => (c :: p.1, p.2)) from rfl]
    rw [if_neg hc, ihk (fun hm => hk (by simp [hm]))]
    rfl

/-- `parseArg` on an argument with a key and a value: splits at the first
`=` and applies the parenthesized-list rule. -/
theorem parseArg_keyval (k v : GoStr) (hk : '=' ∉ k) :
    parseArg (k ++ '=' :: v) =
      ⟨k, if 2 < utf8Len v ∧ v.head? = some '(' ∧ v.getLast? = some ')'
          then (splitOnComma (v.drop 1).dropLast).map trimSpace
          else [v]⟩ := by
  unfold parseArg
  rw [splitAtEq_append _ _ hk]
  dsimp only
  by_cases hP : 2 < utf8Len v ∧ v.head? = some '(' ∧ v.getLast? = some ')'
  · rw [if_pos hP, if_pos hP]
  · rw [if_neg hP, if_neg hP]

theorem unlines_nil : unlines [] = [] := rfl

theorem unlines_cons (a : GoStr) (ls : List GoStr) :
    unlines (a :: ls) = a ++ '\n' :: unlines ls := by
  simp [unlines]

theorem findDoubleSep_cons₂ (a b : GoStr) (rest : List GoStr)
    (h : ¬(a = sepLine ∧ b = sepLine)) :
    findDoubleSep (a :: b :: rest) = (findDoubleSep (b :: rest)).map (· + 1) := by
  simp [findDoubleSep, h]

theorem findDoubleSep_cons_ne (a : GoStr) (rest : List GoStr) (h : a ≠ sepLine) :
    findDoubleSep (a :: rest) = (findDoubleSep rest).map (· + 1) := by
  cases rest with
  | nil => rfl
  | cons b rr => exact findDoubleSep_cons₂ a b rr (fun hc => h hc.1)

/-- `doubleLoop` splits exactly at the first two consecutive separator
lines when such a pair exists. -/
theorem doubleLoop_some (ls : List GoStr) :
    ∀ i, findDoubleSep ls = some i →
      doubleLoop ls = (unlines (ls.take i), ls.drop (i + 2)) := by
  induction ls using doubleLoop.induct with
  | case1 => intro i h; simp [findDoubleSep] at h
  | case2 l => intro i h; simp [findDoubleSep] at h
  | case3 rest =>
    intro i h
    simp only [findDoubleSep, and_self, if_pos, Option.some.injEq] at h
    subst h
    have hd2 : (sepLine :: sepLine :: rest).drop (0 + 2) = rest := rfl
    rw [hd2]
    simp [doubleLoop, unlines]
  | case4 l2 rest hne b r heq ih =>
    intro i h
    have hcond : ¬(sepLine = sepLine ∧ l2 = sepLine) := fun hc => hne hc.2
    rw [findDoubleSep_cons₂ _ _ _ hcond, findDoubleSep_cons_ne _ _ hne] at h
    cases hfd : findDoubleSep rest with
    | none => rw [hfd] at h; simp at h
    | some j =>
      rw [hfd] at h
      simp only [Option.map_some', Option.some.injEq] at h
      subst h
      have hdl := ih j hfd
      have ht : (sepLine :: l2 :: rest).take (j + 1 + 1) =
          sepLine :: l2 :: rest.take j := rfl
      have hd2 : (sepLine :: l2 :: rest).drop (j + 1 + 1 + 2) =
          rest.drop (j + 2) := rfl
      rw [ht, hd2, unlines_cons, unlines_cons]
      simp [doubleLoop, hne, hdl]
  | case5 l l2 rest hne b r heq ih =>
    intro i h
    rw [findDoubleSep_cons_ne _ _ hne] at h
    cases hfd : findDoubleSep (l2 :: rest) with
    | none => rw [hfd] at h; simp at h
    | some j =>
      rw [hfd] at h
      simp only [Option.map_some', Option.some.injEq] at h
      subst h
      have hdl := ih j hfd
      have ht : (l :: l2 :: rest).take (j + 1) = l :: (l2 :: rest).take j := rfl
      have hd2 : (l :: l2 :: rest).drop (j + 1 + 2) = (l2 :: rest).drop (j + 2) := rfl
      rw [ht, hd2, unlines_cons]
      simp [doubleLoop, hne, hdl]

/-- `doubleLoop` consumes everything when no two consecutive separator
lines occur. -/
theorem doubleLoop_none (ls : List GoStr) :
    findDoubleSep ls = none → doubleLoop ls = (unlines ls, []) := by
  induction ls using doubleLoop.induct with
  | case1 => intro h; simp [doubleLoop, unlines]
  | case2 l => intro h; simp [doubleLoop, unlines_cons, unlines]
  | case3 rest => intro h; simp [findDoubleSep] at h
  | case4 l2 rest hne b r heq ih =>
    intro h
    have hcond : ¬(sepLine = sepLine ∧ l2 = sepLine) := fun hc => hne hc.2
    rw [findDoubleSep_cons₂ _ _ _ hcond, findDoubleSep_cons_ne _ _ hne] at h
    cases hfd : findDoubleSep rest with
    | some j => rw [hfd] at h; simp at h
    | none =>
      have hdl := ih hfd
      rw [unlines_cons, unlines_cons]
      simp [doubleLoop, hne, hdl]
  | case5 l l2 rest hne b r heq ih =>
    intro h
    rw [findDoubleSep_cons_ne _ _ hne] at h
    cases hfd : findDoubleSep (l2 :: rest) with
    | some j => rw [hfd] at h; simp at h
    | none =>
      have hdl := ih hfd
      rw [unlines_cons]
      simp [doubleLoop, hne, hdl]

/-- `singleLoop` computes exactly the split at the first blank line
described by the spec. -/
theorem singleLoop_spec (line : GoStr) (ls : List GoStr) :
    singleLoop line ls =
      (unlines ((line :: ls).takeWhile nonBlank),
        ((line :: ls).dropWhile nonBlank).tail) := by
  induction line, ls using singleLoop.induct with
  | case1 line hb =>
    simp [singleLoop, hb, nonBlank, List.takeWhile, List.dropWhile, unlines]
  | case2 line hb =>
    have hnb : nonBlank line = true := by
      simp [nonBlank, List.isEmpty_iff, hb]
    simp [singleLoop, hb, hnb, unlines, unlines_cons]
  | case3 line l2 rest hb =>
    simp [singleLoop, hb, nonBlank, List.takeWhile, List.dropWhile, unlines]
  | case4 line l2 rest hb b r heq ih =>
    rw [heq] at ih
    have hnb : nonBlank line = true := by
      simp [nonBlank, List.isEmpty_iff, hb]
    simp only [singleLoop, if_neg hb, heq]
    rw [List.takeWhile_cons, List.dropWhile_cons, if_pos hnb, if_pos hnb,
      unlines_cons]
    simp only [Prod.mk.injEq] at ih ⊢
    exact ⟨by rw [ih.1], ih.2⟩

/-- C1 core equivalence: `readExpected` agrees with the spec's description
of both capture modes. -/
theorem readExpected_eq_spec (ls : List GoStr) :
    readExpected ls = expectedSpec ls := by
  cases ls with
  | nil => rfl
  | cons l rest =>
    by_cases h : l = sepLine
    · simp only [readExpected, expectedSpec, if_pos h]
      cases hfd : findDoubleSep rest with
      | some i => exact doubleLoop_some rest i hfd
      | none => exact doubleLoop_none rest hfd
    · simp only [readExpected, expectedSpec, if_neg h]
      exact singleLoop_spec l rest



/-! ## Block-reader lemmas -/

theorem joinLines_decomp (ls : List GoStr) :
    ∀ line f cons r, joinLines line ls = (f, cons, r) → ls = cons ++ r := by
  induction ls with
  | nil =>
    intro line f cons r h
    simp only [joinLines, Prod.mk.injEq] at h
    obtain ⟨-, rfl, rfl⟩ := h
    rfl
  | cons l2 rest ih =>
    intro line f cons r h
    by_cases hbs : endsWithBS line
    · simp only [joinLines, if_pos hbs] at h
      cases hj : joinLines (stripBS line ++ ' ' :: trimSpace l2) rest with
      | mk f0 p =>
        obtain ⟨cons0, r0⟩ := p
        rw [hj] at h
        dsimp only at h
        simp only [Prod.mk.injEq] at h
        obtain ⟨rfl, rfl, rfl⟩ := h
        rw [List.cons_append]
        exact congrArg (l2 :: ·) (ih _ f0 cons0 r0 hj)
    · simp only [joinLines, if_neg hbs, Prod.mk.injEq] at h
      obtain ⟨-, rfl, rfl⟩ := h
      rfl

theorem joinLines_nobs (line : GoStr) (ls : List GoStr)
    (h : endsWithBS line = false) : joinLines line ls = (line, [], ls) := by
  cases ls with
  | nil => rfl
  | cons l2 rest => simp [joinLines, h]

theorem readInput_sep (ls : List GoStr) :
    ∀ inp r, readInput ls = (inp, true, r) →
      ls = inp ++ sepLine :: r ∧ ∀ x ∈ inp, x ≠ sepLine := by
  induction ls with
  | nil =>
    intro inp r h
    simp only [readInput, Prod.mk.injEq] at h
    exact absurd h.2.1 (by simp)
  | cons l rest ih =>
    intro inp r h
    by_cases hl : l = sepLine
    · simp only [readInput, if_pos hl, Prod.mk.injEq] at h
      obtain ⟨h1, -, h3⟩ := h
      subst h1
      subst h3
      exact ⟨by simp [hl], by simp⟩
    · obtain ⟨c, sfound, r0, hri⟩ : ∃ c sf r0, readInput rest = (c, sf, r0) :=
        ⟨_, _, _, rfl⟩
      simp only [readInput, if_neg hl, hri, Prod.mk.injEq] at h
      obtain ⟨h1, hs, h3⟩ := h
      subst h1
      subst h3
      obtain ⟨hdec, hno⟩ := ih c r0 (by rw [hri, hs])
      refine ⟨by rw [List.cons_append, ← hdec], ?_⟩
      intro x hx
      rcases List.mem_cons.mp hx with rfl | hx0
      · exact hl
      · exact hno x hx0

theorem readInput_eof (ls : List GoStr) :
    ∀ inp r, readInput ls = (inp, false, r) →
      ls = inp ∧ r = [] ∧ ∀ x ∈ inp, x ≠ sepLine := by
  induction ls with
  | nil =>
    intro inp r h
    simp only [readInput, Prod.mk.injEq] at h
    obtain ⟨h1, -, h3⟩ := h
    subst h1
    subst h3
    exact ⟨rfl, rfl, by simp⟩
  | cons l rest ih =>
    intro inp r h
    by_cases hl : l = sepLine
    · simp only [readInput, if_pos hl, Prod.mk.injEq] at h
      exact absurd h.2.1 (by simp)
    · obtain ⟨c, sfound, r0, hri⟩ : ∃ c sf r0, readInput rest = (c, sf, r0) :=
        ⟨_, _, _, rfl⟩
      simp only [readInput, if_neg hl, hri, Prod.mk.injEq] at h
      obtain ⟨h1, hs, h3⟩ := h
      subst h1
      subst h3
      obtain ⟨rfl, rfl, hno⟩ := ih c r0 (by rw [hri, hs])
      refine ⟨rfl, rfl, ?_⟩
      intro x hx
      rcases List.mem_cons.mp hx with rfl | hx0
      · exact hl
      · exact hno x hx0

theorem readInput_append (a b : List GoStr) (ha : ∀ x ∈ a, x ≠ sepLine) :
    readInput (a ++ sepLine :: b) = (a, true, b) := by
  induction a with
  | nil => simp [readInput]
  | cons l rest ih =>
    have hl : l ≠ sepLine := ha l (by simp)
    have hih := ih (fun x hx => ha x (by simp [hx]))
    rw [List.cons_append]
    simp only [readInput, if_neg hl, hih]

theorem readInput_noSep (ls : List GoStr) (h : sepLine ∉ ls) :
    readInput ls = (ls, false, []) := by
  induction ls with
  | nil => rfl
  | cons l rest ih =>
    have hl : l ≠ sepLine := fun hc => h (by simp [hc])
    have hih := ih (fun hc => h (by simp [hc]))
    simp only [readInput, if_neg hl, hih]

theorem readExpected_rest_le (ls : List GoStr) :
    (readExpected ls).2.length ≤ ls.length := by
  rw [readExpected_eq_spec]
  cases ls with
  | nil => simp [expectedSpec]
  | cons l rest =>
    by_cases hl : l = sepLine
    · simp only [expectedSpec, if_pos hl]
      cases hfd : findDoubleSep rest with
      | some i =>
        dsimp only
        have := List.length_drop (i + 2) rest
        simp only [List.length_cons, this]
        omega
      | none => simp
    · simp only [expectedSpec, if_neg hl]
      have h1 : ((l :: rest).dropWhile nonBlank).length ≤ (l :: rest).length :=
        (List.dropWhile_sublist _).length_le
      have h2 : (((l :: rest).dropWhile nonBlank).tail).length ≤
          ((l :: rest).dropWhile nonBlank).length := by
        cases hx : (l :: rest).dropWhile nonBlank <;> simp
      omega

/-- One computation step of the fuelled reader. -/
theorem nextRecordF_succ (fuel : Nat) (l : GoStr) (rest : List GoStr) :
    nextRecordF (fuel + 1) (l :: rest) =
      (if isCommentLine (trimSpace l) then mapEmit l (nextRecordF fuel rest)
       else
        match joinLines (trimSpace l) rest with
        | (line, cons, rest1) =>
          match ParseLine line with
          | .error e => .error e
          | .ok (cmd, _) =>
            if cmd.isEmpty then mapEmitAll (l :: cons) (nextRecordF fuel rest1)
            else handleDirective (l :: cons) line rest1) := rfl

theorem mapEmit_ok_some (l : GoStr) (r : ReadRes) (em : List GoStr)
    (d : TestData) (rest : List GoStr)
    (h : mapEmit l r = .ok (em, some (d, rest))) :
    ∃ em0, r = .ok (em0, some (d, rest)) ∧ em = l :: em0 := by
  cases r with
  | error e => exact absurd h (by simp [mapEmit])
  | ok p =>
    obtain ⟨em0, o⟩ := p
    simp only [mapEmit, Except.ok.injEq, Prod.mk.injEq] at h
    obtain ⟨rfl, rfl⟩ := h
    exact ⟨em0, rfl, rfl⟩

theorem mapEmitAll_ok_some (xs : List GoStr) (r : ReadRes) (em : List GoStr)
    (d : TestData) (rest : List GoStr)
    (h : mapEmitAll xs r = .ok (em, some (d, rest))) :
    ∃ em0, r = .ok (em0, some (d, rest)) ∧ em = xs ++ em0 := by
  cases r with
  | error e => exact absurd h (by simp [mapEmitAll])
  | ok p =>
    obtain ⟨em0, o⟩ := p
    simp only [mapEmitAll, Except.ok.injEq, Prod.mk.injEq] at h
    obtain ⟨rfl, rfl⟩ := h
    exact ⟨em0, rfl, rfl⟩

theorem handleDirective_some (emitted : List GoStr) (line : GoStr)
    (rest : List GoStr)
    (em : List GoStr) (o : Option (TestData × List GoStr))
    (h : handleDirective emitted line rest = .ok (em, o)) :
    ∀ d rest3, o = some (d, rest3) → rest3.length ≤ rest.length := by
  intro d rest3 ho
  subst ho
  unfold handleDirective at h
  cases hp : ParseLine line with
  | error e => rw [hp] at h; exact absurd h (by simp)
  | ok p =>
    obtain ⟨cmd, args⟩ := p
    rw [hp] at h
    dsimp only at h
    cases hri : readInput rest with
    | mk inp br =>
      obtain ⟨sepb, rest2⟩ := br
      rw [hri] at h
      dsimp only at h
      cases sepb with
      | false =>
        rw [if_neg (by simp)] at h
        simp only [Except.ok.injEq, Prod.mk.injEq, Option.some.injEq] at h
        obtain ⟨-, -, h3⟩ := h
        obtain ⟨-, h2, -⟩ := readInput_eof rest inp rest2 hri
        rw [← h3, h2]
        simp
      | true =>
        rw [if_pos rfl] at h
        cases hre : readExpected rest2 with
        | mk expd r3 =>
          rw [hre] at h
          simp only [Except.ok.injEq, Prod.mk.injEq, Option.some.injEq] at h
          obtain ⟨-, -, h3⟩ := h
          obtain ⟨hdec, -⟩ := readInput_sep rest inp rest2 hri
          have h1 : r3.length ≤ rest2.length := by
            have := readExpected_rest_le rest2
            rw [hre] at this
            exact this
          rw [← h3, hdec]
          simp only [List.length_append, List.length_cons]
          omega

theorem mapEmit_ok_none (l : GoStr) (r : ReadRes) (em : List GoStr)
    (h : mapEmit l r = .ok (em, none)) :
    ∃ em0, r = .ok (em0, none) ∧ em = l :: em0 := by
  cases r with
  | error e => exact absurd h (by simp [mapEmit])
  | ok p =>
    obtain ⟨em0, o⟩ := p
    simp only [mapEmit, Except.ok.injEq, Prod.mk.injEq] at h
    obtain ⟨rfl, rfl⟩ := h
    exact ⟨em0, rfl, rfl⟩

theorem mapEmitAll_ok_none (xs : List GoStr) (r : ReadRes) (em : List GoStr)
    (h : mapEmitAll xs r = .ok (em, none)) :
    ∃ em0, r = .ok (em0, none) ∧ em = xs ++ em0 := by
  cases r with
  | error e => exact absurd h (by simp [mapEmitAll])
  | ok p =>
    obtain ⟨em0, o⟩ := p
    simp only [mapEmitAll, Except.ok.injEq, Prod.mk.injEq] at h
    obtain ⟨rfl, rfl⟩ := h
    exact ⟨em0, rfl, rfl⟩

/-- `handleDirective` always produces a record when it succeeds. -/
theorem handleDirective_not_none (emitted : List GoStr) (line : GoStr)
    (rest : List GoStr) (em : List GoStr) :
    handleDirective emitted line rest ≠ .ok (em, none) := by
  intro h
  unfold handleDirective at h
  cases hp : ParseLine line with
  | error e => rw [hp] at h; exact absurd h (by simp)
  | ok p =>
    obtain ⟨cmd, args⟩ := p
    rw [hp] at h
    dsimp only at h
    obtain ⟨inp, sepb, rest2, hri⟩ :
        ∃ i sb r2, readInput rest = (i, sb, r2) := ⟨_, _, _, rfl⟩
    rw [hri] at h
    dsimp only at h
    cases sepb with
    | false =>
      rw [if_neg (by simp)] at h
      simp at h
    | true =>
      rw [if_pos rfl] at h
      obtain ⟨expd, r3, hre⟩ : ∃ e r3, readExpected rest2 = (e, r3) :=
        ⟨_, _, rfl⟩
      rw [hre] at h
      simp at h

/-- The fuelled reader makes strict progress whenever it finds a record. -/
theorem nextRecordF_some_lt (fuel : Nat) :
    ∀ ls em d rest, nextRecordF fuel ls = .ok (em, some (d, rest)) →
      rest.length < ls.length := by
  induction fuel with
  | zero =>
    intro ls em d rest h
    simp only [nextRecordF] at h
    simp at h
  | succ fuel ih =>
    intro ls em d rest h
    cases ls with
    | nil => simp only [nextRecordF] at h; simp at h
    | cons l rest0 =>
      rw [nextRecordF_succ] at h
      by_cases hc : isCommentLine (trimSpace l)
      · rw [if_pos hc] at h
        obtain ⟨em0, h0, -⟩ := mapEmit_ok_some _ _ _ _ _ h
        have := ih rest0 em0 d rest h0
        simp only [List.length_cons]
        omega
      · rw [if_neg hc] at h
        obtain ⟨line, cons, rest1, hj⟩ :
            ∃ a b c, joinLines (trimSpace l) rest0 = (a, b, c) := ⟨_, _, _, rfl⟩
        rw [hj] at h
        dsimp only at h
        have hr1 : rest1.length ≤ rest0.length := by
          have := joinLines_decomp rest0 (trimSpace l) line cons rest1 hj
          rw [this]
          simp
        cases hp : ParseLine line with
        | error e => rw [hp] at h; exact absurd h (by simp)
        | ok p =>
          obtain ⟨cmd, args⟩ := p
          rw [hp] at h
          dsimp only at h
          by_cases hcmd : cmd.isEmpty
          · rw [if_pos hcmd] at h
            obtain ⟨em0, h0, -⟩ := mapEmitAll_ok_some _ _ _ _ _ h
            have := ih rest1 em0 d rest h0
            simp only [List.length_cons]
            omega
          · rw [if_neg hcmd] at h
            have := handleDirective_some _ _ _ _ _ h d rest rfl
            simp only [List.length_cons]
            omega

theorem nextRecord_some_lt (ls : List GoStr) (em : List GoStr) (d : TestData)
    (rest : List GoStr) (h : nextRecord ls = .ok (em, some (d, rest))) :
    rest.length < ls.length :=
  nextRecordF_some_lt (ls.length + 1) ls em d rest h

/-- Fuel does not matter once it exceeds the number of lines. -/
theorem nextRecordF_mono (f : Nat) :
    ∀ g ls, ls.length < f → ls.length < g →
      nextRecordF f ls = nextRecordF g ls := by
  induction f with
  | zero => intro g ls h1 h2; omega
  | succ f ih =>
    intro g ls h1 h2
    cases g with
    | zero => omega
    | succ g =>
      cases ls with
      | nil => rfl
      | cons l rest0 =>
        rw [nextRecordF_succ, nextRecordF_succ]
        simp only [List.length_cons] at h1 h2
        by_cases hc : isCommentLine (trimSpace l)
        · rw [if_pos hc, if_pos hc,
            ih g rest0 (by omega) (by omega)]
        · rw [if_neg hc, if_neg hc]
          obtain ⟨line, cons, rest1, hj⟩ :
              ∃ a b c, joinLines (trimSpace l) rest0 = (a, b, c) :=
            ⟨_, _, _, rfl⟩
          rw [hj]
          dsimp only
          have hr1 : rest1.length ≤ rest0.length := by
            have := joinLines_decomp rest0 (trimSpace l) line cons rest1 hj
            rw [this]
            simp
          cases hp : ParseLine line with
          | error e => rfl
          | ok p =>
            obtain ⟨cmd, args⟩ := p
            dsimp only
            by_cases hcmd : cmd.isEmpty
            · rw [if_pos hcmd, if_pos hcmd,
                ih g rest1 (by omega) (by omega)]
            · rw [if_neg hcmd, if_neg hcmd]

/-- Reading an empty stream yields no record. -/
theorem nextRecord_nil : nextRecord [] = .ok ([], none) := rfl

/-- A comment line is echoed and skipped. -/
theorem nextRecord_comment (l : GoStr) (ls : List GoStr)
    (h : isCommentLine (trimSpace l) = true) :
    nextRecord (l :: ls) = mapEmit l (nextRecord ls) := by
  show nextRecordF (ls.length + 1 + 1) (l :: ls) = _
  rw [nextRecordF_succ, if_pos h]
  rfl

/-- A blank line is echoed and skipped (`ParseLine` yields the empty
command on the trimmed empty line). -/
theorem nextRecord_blank (l : GoStr) (ls : List GoStr)
    (h : trimSpace l = []) :
    nextRecord (l :: ls) = mapEmit l (nextRecord ls) := by
  show nextRecordF (ls.length + 1 + 1) (l :: ls) = _
  rw [nextRecordF_succ, h, if_neg (by simp [isCommentLine])]
  rw [joinLines_nobs [] ls (by decide)]
  dsimp only
  rw [show ParseLine [] = .ok ([], []) from rfl]
  dsimp only
  rw [if_pos (by simp)]
  cases hr : nextRecordF (ls.length + 1) ls with
  | error e => simp [mapEmitAll, mapEmit, nextRecord, hr]
  | ok p => simp [mapEmitAll, mapEmit, nextRecord, hr]

/-- A directive line: the reader hands the joined logical line to the
parser and proceeds to capture the record. -/
theorem nextRecord_directive (l : GoStr) (ls : List GoStr) (line : GoStr)
    (cons rest1 : List GoStr) (cmd : GoStr) (args : List CmdArg)
    (hnc : isCommentLine (trimSpace l) = false)
    (hj : joinLines (trimSpace l) ls = (line, cons, rest1))
    (hp : ParseLine line = .ok (cmd, args)) (hcmd : cmd ≠ []) :
    nextRecord (l :: ls) = handleDirective (l :: cons) line rest1 := by
  show nextRecordF (ls.length + 1 + 1) (l :: ls) = _
  rw [nextRecordF_succ, if_neg (by simp [hnc]), hj]
  dsimp only
  rw [hp]
  dsimp only
  rw [if_neg (by simpa [List.isEmpty_iff] using hcmd)]

/-- A parse error on the (joined) directive line aborts the reader. -/
theorem nextRecord_parse_error (l : GoStr) (ls : List GoStr) (line : GoStr)
    (cons rest1 : List GoStr) (e : ParseErr)
    (hnc : isCommentLine (trimSpace l) = false)
    (hj : joinLines (trimSpace l) ls = (line, cons, rest1))
    (hp : ParseLine line = .error e) :
    nextRecord (l :: ls) = .error e := by
  show nextRecordF (ls.length + 1 + 1) (l :: ls) = _
  rw [nextRecordF_succ, if_neg (by simp [hnc]), hj]
  dsimp only
  rw [hp]

/-- The continuing-with-joined-rest case when the command is empty (not
reachable for nonempty logical lines, but part of the code path). -/
theorem nextRecord_emptycmd (l : GoStr) (ls : List GoStr) (line : GoStr)
    (cons rest1 : List GoStr) (args : List CmdArg)
    (hnc : isCommentLine (trimSpace l) = false)
    (hj : joinLines (trimSpace l) ls = (line, cons, rest1))
    (hp : ParseLine line = .ok ([], args)) :
    nextRecord (l :: ls) = mapEmitAll (l :: cons) (nextRecord rest1) := by
  show nextRecordF (ls.length + 1 + 1) (l :: ls) = _
  rw [nextRecordF_succ, if_neg (by simp [hnc]), hj]
  dsimp only
  rw [hp]
  dsimp only
  rw [if_pos (by simp)]
  have hr1 : rest1.length ≤ ls.length := by
    have := joinLines_decomp ls (trimSpace l) line cons rest1 hj
    rw [this]
    simp
  rw [nextRecordF_mono (ls.length + 1) (rest1.length + 1) rest1 (by omega)
    (by omega)]
  rfl

/-- When the reader finds no record, it has echoed exactly the remaining
lines (they are all comments and blanks). -/
theorem nextRecordF_none_eq (fuel : Nat) :
    ∀ ls em, ls.length < fuel → nextRecordF fuel ls = .ok (em, none) →
      em = ls := by
  induction fuel with
  | zero => intro ls em h1 h; omega
  | succ fuel ih =>
    intro ls em h1 h
    cases ls with
    | nil =>
      simp only [nextRecordF, Except.ok.injEq, Prod.mk.injEq] at h
      exact h.1.symm
    | cons l rest0 =>
      rw [nextRecordF_succ] at h
      simp only [List.length_cons] at h1
      by_cases hc : isCommentLine (trimSpace l)
      · rw [if_pos hc] at h
        obtain ⟨em0, h0, rfl⟩ := mapEmit_ok_none _ _ _ h
        rw [ih rest0 em0 (by omega) h0]
      · rw [if_neg hc] at h
        obtain ⟨line, cons, rest1, hj⟩ :
            ∃ a b c, joinLines (trimSpace l) rest0 = (a, b, c) := ⟨_, _, _, rfl⟩
        rw [hj] at h
        dsimp only at h
        have hdecomp := joinLines_decomp rest0 (trimSpace l) line cons rest1 hj
        have hr1 : rest1.length ≤ rest0.length := by
          rw [hdecomp]; simp
        cases hp : ParseLine line with
        | error e => rw [hp] at h; exact absurd h (by simp)
        | ok p =>
          obtain ⟨cmd, args⟩ := p
          rw [hp] at h
          dsimp only at h
          by_cases hcmd : cmd.isEmpty
          · rw [if_pos hcmd] at h
            obtain ⟨em0, h0, rfl⟩ := mapEmitAll_ok_none _ _ _ h
            rw [ih rest1 em0 (by omega) h0, hdecomp]
            simp
          · rw [if_neg hcmd] at h
            exact absurd h (handleDirective_not_none _ _ _ _)

theorem nextRecord_none_eq (ls : List GoStr) (em : List GoStr)
    (h : nextRecord ls = .ok (em, none)) : em = ls :=
  nextRecordF_none_eq (ls.length + 1) ls em (by omega) h

/-- One computation step of the fuelled record-collection loop. -/
theorem parseAllF_succ (fuel : Nat) (ls : List GoStr) :
    parseAllF (fuel + 1) ls =
      (match nextRecord ls with
       | .error e => .error e
       | .ok (em, none) => .ok ([], em)
       | .ok (em, some (d, rest)) =>
         match parseAllF fuel rest with
         | .error e => .error e
         | .ok (recs, trail) => .ok ((em, d) :: recs, trail)) := rfl

theorem parseAllF_mono (f : Nat) :
    ∀ g ls, ls.length < f → ls.length < g → parseAllF f ls = parseAllF g ls := by
  induction f with
  | zero => intro g ls h1 h2; omega
  | succ f ih =>
    intro g ls h1 h2
    cases g with
    | zero => omega
    | succ g =>
      rw [parseAllF_succ, parseAllF_succ]
      cases hn : nextRecord ls with
      | error e => rfl
      | ok p =>
        obtain ⟨em, o⟩ := p
        cases o with
        | none => rfl
        | some pr =>
          obtain ⟨d, rest⟩ := pr
          dsimp only
          have hlt := nextRecord_some_lt ls em d rest hn
          rw [ih g rest (by omega) (by omega)]

theorem parseAll_error (ls : List GoStr) (e : ParseErr)
    (h : nextRecord ls = .error e) : parseAll ls = .error e := by
  show parseAllF (ls.length + 1) ls = _
  rw [parseAllF_succ, h]

theorem parseAll_none (ls : List GoStr) (em : List GoStr)
    (h : nextRecord ls = .ok (em, none)) : parseAll ls = .ok ([], em) := by
  show parseAllF (ls.length + 1) ls = _
  rw [parseAllF_succ, h]

theorem parseAll_some (ls : List GoStr) (em : List GoStr) (d : TestData)
    (rest : List GoStr) (h : nextRecord ls = .ok (em, some (d, rest))) :
    parseAll ls =
      (match parseAll rest with
       | .error e => .error e
       | .ok (recs, trail) => .ok ((em, d) :: recs, trail)) := by
  show parseAllF (ls.length + 1) ls = _
  rw [parseAllF_succ, h]
  dsimp only
  have hlt := nextRecord_some_lt ls em d rest h
  rw [parseAllF_mono ls.length (rest.length + 1) rest (by omega) (by omega)]
  rfl

/-! ## Rewrite round-trip lemmas -/

/-- The last character of a matched token is a space, an identifier or
value character, `)` or `=` — never a backslash. -/
theorem findTok_getLast (l str rest : GoStr) (h : findTok l = some (str, rest)) :
    str.getLast? ≠ some '\\' := by
  unfold findTok at h
  by_cases hid : ((l.dropWhile spaceCh).takeWhile isIdentCh).isEmpty
  · rw [if_pos hid] at h
    exact absurd h (by simp)
  · rw [if_neg hid] at h
    cases hcore : findTokCore ((l.dropWhile spaceCh).takeWhile isIdentCh)
        ((l.dropWhile spaceCh).dropWhile isIdentCh) with
    | none => rw [hcore] at h; exact absurd h (by simp)
    | some p =>
      obtain ⟨body, rst⟩ := p
      rw [hcore] at h
      simp only [Option.some.injEq, Prod.mk.injEq] at h
      obtain ⟨rfl, rfl⟩ := h.symm
      obtain ⟨hdec, core, tl, hbody, htl, hcase⟩ :=
        findTokCore_some _ _ _ _ hcore
      have hid_ne : (l.dropWhile spaceCh).takeWhile isIdentCh ≠ [] := by
        simpa [List.isEmpty_iff] using hid
      have hid_all : ∀ c ∈ (l.dropWhile spaceCh).takeWhile isIdentCh,
          isIdentCh c = true := fun c hc => List.mem_takeWhile_imp hc
      have hcore_ne : core ≠ [] := by
        rcases hcase with rfl | ⟨v, rfl, _⟩ | ⟨inside, rfl, _⟩
        · exact hid_ne
        · simp [hid_ne]
        · simp [hid_ne]
      intro hlast
      rw [hbody] at hlast
      cases htl0 : tl with
      | cons c0 tl0 =>
        rw [htl0] at hlast
        rw [← List.append_assoc,
          List.getLast?_append_of_ne_nil _ (by simp)] at hlast
        have hmem := List.mem_of_mem_getLast? hlast
        have := htl ('\\') (by rw [htl0]; exact hmem)
        simp [spaceCh] at this
      | nil =>
        rw [htl0, List.append_nil,
          List.getLast?_append_of_ne_nil _ hcore_ne] at hlast
        rcases hcase with rfl | ⟨v, hco, hv⟩ | ⟨inside, hco, _⟩
        · have := hid_all _ (List.mem_of_mem_getLast? hlast)
          exact absurd this (by decide)
        · rw [hco, List.getLast?_append_of_ne_nil _ (by simp)] at hlast
          rcases List.mem_cons.mp (List.mem_of_mem_getLast? hlast) with
            hc | hmemv
          · exact absurd hc (by decide)
          · exact absurd (hv _ hmemv) (by decide)
        · rw [hco, List.getLast?_append_of_ne_nil _ (by simp)] at hlast
          rw [show ('=' :: '(' :: (inside ++ [')'])) =
            ('=' :: '(' :: inside) ++ [')'] by simp] at hlast
          rw [List.getLast?_concat] at hlast
          simp at hlast

/-- A line that tokenizes successfully does not end in a backslash. -/
theorem splitLoop_ok_last (fuel : Nat) :
    ∀ orig l toks, splitLoop fuel orig l = .ok toks →
      l.getLast? ≠ some '\\' := by
  induction fuel with
  | zero => intro orig l toks h; exact absurd h (by simp [splitLoop])
  | succ fuel ih =>
    intro orig l toks h
    rw [splitLoop] at h
    by_cases hl : l.isEmpty
    · obtain rfl : l = [] := by simpa [List.isEmpty_iff] using hl
      simp
    · rw [if_neg hl] at h
      cases hft : findTok l with
      | none => rw [hft] at h; exact absurd h (by simp)
      | some p =>
        obtain ⟨str, rest⟩ := p
        rw [hft] at h
        dsimp only at h
        obtain ⟨hsplit, hne, -, -⟩ := findTok_some l str rest hft
        cases hin : splitLoop fuel orig rest with
        | error e => rw [hin] at h; exact absurd h (by simp [Except.map])
        | ok toks0 =>
          cases hrest : rest with
          | nil =>
            rw [hsplit, hrest, List.append_nil]
            exact findTok_getLast l str rest hft
          | cons r0 rs =>
            rw [hsplit, hrest,
              List.getLast?_append_of_ne_nil _ (by simp)]
            rw [hrest] at hin
            exact ih orig (r0 :: rs) toks0 hin

/-- A logical line accepted by `ParseLine` does not end in the
continuation backslash (so re-scanning it joins nothing further). -/
theorem ParseLine_ok_no_bs (line : GoStr) (cmd : GoStr) (args : List CmdArg)
    (h : ParseLine line = .ok (cmd, args)) : endsWithBS line = false := by
  unfold ParseLine at h
  cases hs : splitDirectives line with
  | error e => rw [hs] at h; exact absurd h (by simp)
  | ok fields =>
    have := splitLoop_ok_last (line.length + 1) line line fields hs
    unfold endsWithBS
    simpa using this

/-- Re-running the continuation join on exactly the lines it consumed
(followed by anything) reproduces the same joined line, provided the
final logical line does not itself end in a backslash. -/
theorem joinLines_refit (ls : List GoStr) :
    ∀ t line cons rest, joinLines t ls = (line, cons, rest) →
      endsWithBS line = false →
      ∀ Y, joinLines t (cons ++ Y) = (line, cons, Y) := by
  induction ls with
  | nil =>
    intro t line cons rest h hbs Y
    simp only [joinLines, Prod.mk.injEq] at h
    obtain ⟨rfl, rfl, -⟩ := h
    simp only [List.nil_append]
    exact joinLines_nobs t Y hbs
  | cons l2 ls0 ih =>
    intro t line cons rest h hbs Y
    by_cases hbst : endsWithBS t
    · simp only [joinLines, if_pos hbst] at h
      obtain ⟨f0, cons0, r0, hj⟩ :
          ∃ a b c, joinLines (stripBS t ++ ' ' :: trimSpace l2) ls0 =
            (a, b, c) := ⟨_, _, _, rfl⟩
      rw [hj] at h
      dsimp only at h
      simp only [Prod.mk.injEq] at h
      obtain ⟨rfl, rfl, rfl⟩ := h
      rw [List.cons_append]
      simp only [joinLines, if_pos hbst]
      rw [ih _ _ _ _ hj hbs Y]
    · simp only [joinLines, if_neg hbst, Prod.mk.injEq] at h
      obtain ⟨rfl, rfl, -⟩ := h
      simp only [List.nil_append]
      exact joinLines_nobs t Y hbs

/-- The serialized expected section always opens with the separator. -/
theorem serializeExpected_head (o : List GoStr) :
    serializeExpected o = sepLine :: (serializeExpected o).tail := by
  unfold serializeExpected
  by_cases h1 : o.isEmpty
  · rw [if_pos h1]; rfl
  · rw [if_neg h1]
    by_cases h2 : hasBlankLine o
    · rw [if_pos h2]; rfl
    · rw [if_neg h2]; rfl

theorem findDoubleSep_append (o R : List GoStr)
    (h : ∀ x ∈ o, x ≠ sepLine) :
    findDoubleSep (o ++ sepLine :: sepLine :: R) = some o.length := by
  induction o with
  | nil => simp [findDoubleSep]
  | cons a o0 ih =>
    have ha : a ≠ sepLine := h a (by simp)
    rw [List.cons_append,
      findDoubleSep_cons_ne a _ ha, ih (fun x hx => h x (by simp [hx]))]
    rfl

theorem singleLoop_blankLine (R : List GoStr) :
    singleLoop [] R = ([], R) := by
  cases R with
  | nil => rfl
  | cons a b => rfl

/-- Single-mode capture of serialized non-blank lines terminated by the
written blank line. -/
theorem singleLoop_nb (t : List GoStr) :
    ∀ h R, trimSpace h ≠ [] → (∀ x ∈ t, trimSpace x ≠ []) →
      singleLoop h (t ++ ([] :: R)) = (unlines (h :: t), R) := by
  induction t with
  | nil =>
    intro h R hh _
    simp only [List.nil_append]
    simp only [singleLoop, if_neg hh, singleLoop_blankLine]
    simp [unlines_cons, unlines]
  | cons x t0 ih =>
    intro h R hh ht
    rw [List.cons_append]
    simp only [singleLoop, if_neg hh]
    rw [ih x R (ht x (by simp)) (fun y hy => ht y (by simp [hy]))]
    dsimp only
    rw [unlines_cons h (x :: t0), unlines_cons x t0]

/-- Capturing the expected section written by the serializer consumes it
exactly and reproduces the serialized output. -/
theorem readExpected_after_serialize (o : List GoStr) (R : List GoStr)
    (hsep : sepLine ∉ o) :
    readExpected ((serializeExpected o).tail ++ R) = (unlines o, R) := by
  unfold serializeExpected
  by_cases h1 : o.isEmpty
  · rw [if_pos h1]
    obtain rfl : o = [] := by simpa [List.isEmpty_iff] using h1
    show readExpected ([] :: R) = (unlines [], R)
    simp only [readExpected]
    rw [if_neg (by decide), singleLoop_blankLine]
    rfl
  · rw [if_neg h1]
    obtain ⟨h, t, rfl⟩ : ∃ h t, o = h :: t := by
      cases o with
      | nil => simp at h1
      | cons h t => exact ⟨h, t, rfl⟩
    have hhead : h ≠ sepLine := fun hc => hsep (by simp [hc])
    by_cases h2 : hasBlankLine (h :: t)
    · rw [if_pos h2]
      show readExpected
        ((sepLine :: sepLine :: ((h :: t) ++ [sepLine, sepLine])).tail
        ++ R) = (unlines (h :: t), R)
      rw [show (sepLine :: sepLine :: ((h :: t) ++ [sepLine, sepLine])).tail
        ++ R = sepLine :: ((h :: t) ++ sepLine :: sepLine :: R) by simp]
      simp only [readExpected]
      rw [if_pos trivial]
      have hfd := findDoubleSep_append (h :: t) R
        (fun x hx hc => hsep (hc ▸ hx))
      rw [doubleLoop_some _ _ hfd]
      rw [List.take_left, List.drop_append 2]
      rfl
    · rw [if_neg h2]
      show readExpected ((sepLine :: ((h :: t) ++ [[]])).tail ++ R) =
        (unlines (h :: t), R)
      rw [show (sepLine :: ((h :: t) ++ [[]])).tail ++ R =
        h :: (t ++ ([] :: R)) by simp]
      simp only [readExpected]
      rw [if_neg hhead]
      have hnb : ∀ x ∈ h :: t, trimSpace x ≠ [] := by
        intro x hx
        have hne : ¬ (trimSpace x).isEmpty = true := by
          intro hc
          exact h2 (by
            unfold hasBlankLine
            rw [List.any_eq_true]
            exact ⟨x, hx, hc⟩)
        simpa [List.isEmpty_iff] using hne
      exact singleLoop_nb t h R (hnb h (by simp))
        (fun x hx => hnb x (by simp [hx]))

/-- Re-parsing a record's emitted lines followed by a freshly serialized
expected section (and any continuation) recovers a record with the same
command, arguments, input and emitted lines, consuming exactly the
serialized section. -/
theorem nextRecordF_reparse (fuel : Nat) :
    ∀ ls em d rest, nextRecordF fuel ls = .ok (em, some (d, rest)) →
      ∀ o R fuel2, sepLine ∉ o → em.length + 1 ≤ fuel2 →
        nextRecordF fuel2 (em ++ (serializeExpected o ++ R)) =
          .ok (em, some (⟨d.Cmd, d.CmdArgs, d.Input, unlines o⟩, R)) := by
  induction fuel with
  | zero =>
    intro ls em d rest h
    exact absurd h (by simp [nextRecordF])
  | succ fuel ih =>
    intro ls em d rest h o R fuel2 hsep hf2
    cases ls with
    | nil => exact absurd h (by simp [nextRecordF])
    | cons l rest0 =>
      rw [nextRecordF_succ] at h
      by_cases hc : isCommentLine (trimSpace l)
      · rw [if_pos hc] at h
        obtain ⟨em0, hinner, rfl⟩ := mapEmit_ok_some l _ em d rest h
        obtain ⟨f2, rfl⟩ : ∃ f2, fuel2 = f2 + 1 := ⟨fuel2 - 1, by omega⟩
        have hf2e : em0.length + 1 ≤ f2 := by
          simp only [List.length_cons] at hf2; omega
        rw [List.cons_append, nextRecordF_succ, if_pos hc,
          ih rest0 em0 d rest hinner o R f2 hsep hf2e]
        rfl
      · rw [if_neg hc] at h
        obtain ⟨line, cons, rest1, hj⟩ :
            ∃ a b c, joinLines (trimSpace l) rest0 = (a, b, c) :=
          ⟨_, _, _, rfl⟩
        rw [hj] at h
        dsimp only at h
        cases hpl : ParseLine line with
        | error e => rw [hpl] at h; exact absurd h (by simp)
        | ok p =>
          obtain ⟨cmd, args⟩ := p
          rw [hpl] at h
          dsimp only at h
          have hnbs : endsWithBS line = false :=
            ParseLine_ok_no_bs line cmd args hpl
          by_cases hce : cmd.isEmpty
          · rw [if_pos hce] at h
            obtain ⟨em0, hinner, rfl⟩ :=
              mapEmitAll_ok_some (l :: cons) _ em d rest h
            obtain ⟨f2, rfl⟩ : ∃ f2, fuel2 = f2 + 1 := ⟨fuel2 - 1, by omega⟩
            have hf2e : em0.length + 1 ≤ f2 := by
              simp only [List.length_append, List.length_cons] at hf2; omega
            have hlist : ((l :: cons) ++ em0) ++ (serializeExpected o ++ R) =
                l :: (cons ++ (em0 ++ (serializeExpected o ++ R))) := by simp
            rw [hlist, nextRecordF_succ, if_neg hc,
              joinLines_refit rest0 (trimSpace l) line cons rest1 hj hnbs
                (em0 ++ (serializeExpected o ++ R))]
            dsimp only
            rw [hpl]
            dsimp only
            rw [if_pos hce, ih rest1 em0 d rest hinner o R f2 hsep hf2e]
            rfl
          · rw [if_neg hce] at h
            unfold handleDirective at h
            rw [hpl] at h
            obtain ⟨inp, sf, rest2, hri⟩ :
                ∃ a b c, readInput rest1 = (a, b, c) := ⟨_, _, _, rfl⟩
            rw [hri] at h
            dsimp only at h
            have hinp : ∀ x ∈ inp, x ≠ sepLine := by
              cases sf
              · exact (readInput_eof rest1 inp rest2 hri).2.2
              · exact (readInput_sep rest1 inp rest2 hri).2
            have hem : em = (l :: cons) ++ inp ∧ d.Cmd = cmd ∧
                d.CmdArgs = args ∧ d.Input = trimSpace (unlines inp) := by
              cases sf with
              | false =>
                rw [if_neg (by simp)] at h
                simp only [Except.ok.injEq, Prod.mk.injEq,
                  Option.some.injEq] at h
                obtain ⟨rfl, rfl, rfl⟩ := h
                exact ⟨rfl, rfl, rfl, rfl⟩
              | true =>
                rw [if_pos rfl] at h
                obtain ⟨expd, rest3, hre⟩ :
                    ∃ a b, readExpected rest2 = (a, b) := ⟨_, _, rfl⟩
                rw [hre] at h
                dsimp only at h
                simp only [Except.ok.injEq, Prod.mk.injEq,
                  Option.some.injEq] at h
                obtain ⟨rfl, rfl, rfl⟩ := h
                exact ⟨rfl, rfl, rfl, rfl⟩
            obtain ⟨rfl, hd1, hd2, hd3⟩ := hem
            rw [hd1, hd2, hd3]
            obtain ⟨f2, rfl⟩ : ∃ f2, fuel2 = f2 + 1 := ⟨fuel2 - 1, by omega⟩
            have hlist : ((l :: cons) ++ inp) ++ (serializeExpected o ++ R) =
                l :: (cons ++ (inp ++ (serializeExpected o ++ R))) := by simp
            rw [hlist, nextRecordF_succ, if_neg hc,
              joinLines_refit rest0 (trimSpace l) line cons rest1 hj hnbs
                (inp ++ (serializeExpected o ++ R))]
            dsimp only
            rw [hpl]
            dsimp only
            rw [if_neg hce]
            unfold handleDirective
            rw [hpl]
            have hser : serializeExpected o ++ R =
                sepLine :: ((serializeExpected o).tail ++ R) := by
              conv_lhs => rw [serializeExpected_head o]
              rfl
            rw [show inp ++ (serializeExpected o ++ R) =
              inp ++ sepLine :: ((serializeExpected o).tail ++ R) from
              by rw [hser]]
            rw [readInput_append inp _ hinp]
            dsimp only
            rw [if_pos rfl, readExpected_after_serialize o R hsep]

/-- `nextRecord` version of the reparse lemma. -/
theorem nextRecord_reparse (ls em : List GoStr) (d : TestData)
    (rest : List GoStr) (h : nextRecord ls = .ok (em, some (d, rest)))
    (o : List GoStr) (R : List GoStr) (hsep : sepLine ∉ o) :
    nextRecord (em ++ (serializeExpected o ++ R)) =
      .ok (em, some (⟨d.Cmd, d.CmdArgs, d.Input, unlines o⟩, R)) :=
  nextRecordF_reparse (ls.length + 1) ls em d rest h o R _ hsep
    (by simp [List.length_append])

theorem rewriteFile_nil (trail : List GoStr) (outs : List (List GoStr)) :
    rewriteFile [] trail outs = trail := rfl

theorem rewriteFile_cons (em : List GoStr) (d : TestData) (recs : RecList)
    (trail : List GoStr) (o : List GoStr) (outs : List (List GoStr)) :
    rewriteFile ((em, d) :: recs) trail (o :: outs) =
      em ++ (serializeExpected o ++ rewriteFile recs trail outs) := by
  simp [rewriteFile]

/-- Re-parsing a rewritten file recovers records with the same emitted
lines and the same trailing lines, so that rewriting it again against the
same outputs reproduces it. -/
theorem parseAll_reparse (n : Nat) :
    ∀ ls, ls.length ≤ n → ∀ recs trail, parseAll ls = .ok (recs, trail) →
      ∀ outs, recs.length ≤ outs.length → (∀ x ∈ outs, sepLine ∉ x) →
        ∃ recs2, parseAll (rewriteFile recs trail outs) = .ok (recs2, trail) ∧
          rewriteFile recs2 trail outs = rewriteFile recs trail outs := by
  induction n with
  | zero =>
    intro ls hn recs trail h outs hlen houts
    obtain rfl : ls = [] := List.length_eq_zero.mp (Nat.le_zero.mp hn)
    rw [parseAll_none [] [] rfl] at h
    simp only [Except.ok.injEq, Prod.mk.injEq] at h
    obtain ⟨rfl, rfl⟩ := h.symm
    exact ⟨[], rfl, rfl⟩
  | succ n ih =>
    intro ls hn recs trail h outs hlen houts
    cases hnr : nextRecord ls with
    | error e => rw [parseAll_error ls e hnr] at h; exact absurd h (by simp)
    | ok p =>
      obtain ⟨em, od⟩ := p
      cases od with
      | none =>
        rw [parseAll_none ls em hnr] at h
        simp only [Except.ok.injEq, Prod.mk.injEq] at h
        obtain ⟨rfl, rfl⟩ := h
        obtain rfl : em = ls := nextRecord_none_eq ls em hnr
        rw [rewriteFile_nil]
        exact ⟨[], parseAll_none _ _ hnr, rfl⟩
      | some q =>
        obtain ⟨d, rest⟩ := q
        rw [parseAll_some ls em d rest hnr] at h
        cases hpr : parseAll rest with
        | error e => rw [hpr] at h; exact absurd h (by simp)
        | ok pr =>
          obtain ⟨recs0, trail0⟩ := pr
          rw [hpr] at h
          dsimp only at h
          simp only [Except.ok.injEq, Prod.mk.injEq] at h
          obtain ⟨rfl, rfl⟩ := h.symm
          obtain ⟨o, outs0, rfl⟩ : ∃ a b, outs = a :: b := by
            cases outs with
            | nil => simp at hlen
            | cons a b => exact ⟨a, b, rfl⟩
          have hrest : rest.length ≤ n := by
            have := nextRecord_some_lt ls em d rest hnr
            omega
          have hlen0 : recs0.length ≤ outs0.length := by
            simp only [List.length_cons] at hlen; omega
          obtain ⟨recs2, hp2, hrw2⟩ := ih rest hrest recs0 trail0 hpr outs0
            hlen0 (fun x hx => houts x (by simp [hx]))
          refine ⟨(em, ⟨d.Cmd, d.CmdArgs, d.Input, unlines o⟩) :: recs2,
            ?_, ?_⟩
          · rw [rewriteFile_cons]
            have hnr2 := nextRecord_reparse ls em d rest hnr o
              (rewriteFile recs0 trail0 outs0) (houts o (by simp))
            rw [parseAll_some _ em _ _ hnr2, hp2]
          · rw [rewriteFile_cons, rewriteFile_cons, hrw2]

/-! ## Claim theorems -/

/-- C1: expected-output capture.  If the line immediately after the first
separator is itself `----` (double-separator form), `readExpected`
accumulates subsequent lines verbatim, blank lines included, and
terminates exactly at the first two *consecutive* `----` lines (a lone
`----` content line is captured, not treated as the terminator);
otherwise (single-separator form) it accumulates lines until the first
blank line, which terminates capture and is not captured.  Stated as
equality with `expectedSpec`, the direct transcription of the spec's
description of the two modes. -/
theorem C1_expected_capture (ls : List GoStr) :
    readExpected ls = expectedSpec ls :=
  readExpected_eq_spec ls

/-- C2 counterexample: the argument `a=()` has a parenthesized value in
the claim's sense, but `ParseLine` keeps it verbatim as `["()"]` rather
than comma-splitting the empty inside to `[""]` (the source requires the
value to be longer than two bytes before splitting). -/
theorem C2_counterexample :
    isParenValClaim (("()").data) = true ∧
    parseArg (("a=()").data) = ⟨("a").data, [("()").data]⟩ ∧
    claimParenVals (("()").data) = [([] : GoStr)] ∧
    [("()").data] ≠ [([] : GoStr)] :=
  ⟨by decide, by decide, by decide, by decide⟩

/-- C2 (amended): for an argument token `key=value` (the key free of
`=`), a value of more than two bytes wrapped in parentheses yields the
comma-split elements inside the parentheses, each trimmed; any other
value — including `()` and the empty value of `key=` — yields the
single-element sequence holding the value verbatim. -/
theorem C2_argument_values :
    (∀ k v : GoStr, '=' ∉ k →
      ((2 < utf8Len v → v.head? = some '(' → v.getLast? = some ')' →
          parseArg (k ++ '=' :: v) = ⟨k, claimParenVals v⟩) ∧
        (¬(2 < utf8Len v ∧ v.head? = some '(' ∧ v.getLast? = some ')') →
          parseArg (k ++ '=' :: v) = ⟨k, [v]⟩))) ∧
    (∀ k : GoStr, '=' ∉ k → parseArg (k ++ ['=']) = ⟨k, [[]]⟩) := by
  constructor
  · intro k v hk
    constructor
    · intro h1 h2 h3
      rw [parseArg_keyval k v hk, if_pos ⟨h1, h2, h3⟩]
      rfl
    · intro hn
      rw [parseArg_keyval k v hk, if_neg hn]
  · intro k hk
    have := (parseArg_keyval k [] hk)
    rw [this, if_neg (by simp [utf8Len])]

/-- C2 witness: `key=(1, 2, 3)` parses to the trimmed values
`["1","2","3"]`. -/
theorem C2_witness :
    parseArg (("key=(1, 2, 3)").data) =
      ⟨("key").data, [("1").data, ("2").data, ("3").data]⟩ := by
  have h := (C2_argument_values.1 (("key").data) (("(1, 2, 3)").data)
    (by decide)).1 (by decide) (by decide) (by decide)
  rw [show (("key=(1, 2, 3)").data) =
    ("key").data ++ '=' :: ("(1, 2, 3)").data from rfl, h]
  decide

/-- C3 counterexample: on `a=(é) #` the code reports byte column 8 (the
first token `a=(é) ` is 7 bytes but only 6 characters), while the
1-based *character* column at which no further token matches is 7; the
claim's "exact character column" does not hold for non-ASCII lines. -/
theorem C3_counterexample :
    splitDirectives (("a=(é) #").data) =
      .error ⟨8, ("a=(é) #").data⟩ ∧
    charFailColumn (("a=(é) #").data) = some 7 ∧ (8 : Nat) ≠ 7 :=
  ⟨by rfl, by rfl, by decide⟩

/-- C3 (amended): every tokenization error carries the original,
untruncated line in its message together with the 1-based *byte* column
of a position from which no valid token can be matched (for ASCII lines
this is the character column); in particular `xx =` fails at column 4. -/
theorem C3_error_column :
    (∀ line e, splitDirectives line = .error e →
      e.line = line ∧
      parseErrMsg e = ("cannot parse directive at column ").data ++
        Nat.toDigits 10 e.column ++ (": ").data ++ line ∧
      ∃ pre rest, line = pre ++ rest ∧ rest ≠ [] ∧ findTok rest = none ∧
        e.column = utf8Len pre + 1) ∧
    splitDirectives (("xx =").data) = .error ⟨4, ("xx =").data⟩ := by
  constructor
  · intro line e h
    obtain ⟨hline, hrest⟩ := splitDirectives_error_spec line e h
    refine ⟨hline, ?_, hrest⟩
    unfold parseErrMsg
    rw [hline]
  · rfl

/-- C3 witness: the general statement applied to the concrete failing
line `xx =` and its error (column 4, the position right after `xx `). -/
theorem C3_witness :
    (⟨4, ("xx =").data⟩ : ParseErr).line = ("xx =").data ∧
    parseErrMsg ⟨4, ("xx =").data⟩ =
      ("cannot parse directive at column ").data ++ Nat.toDigits 10 4 ++
        (": ").data ++ ("xx =").data ∧
    ∃ pre rest, ("xx =").data = pre ++ rest ∧ rest ≠ [] ∧
      findTok rest = none ∧
      (⟨4, ("xx =").data⟩ : ParseErr).column = utf8Len pre + 1 :=
  C3_error_column.1 (("xx =").data) ⟨4, ("xx =").data⟩ (by rfl)

/-- C6: when input capture reaches the end of the stream before any
`----` line, the reader still produces the record: `Next` succeeds with
`Input` the trimmed captured text and `Expected` empty. -/
theorem C6_no_separator (l : GoStr) (ls : List GoStr) (line : GoStr)
    (cons rest1 : List GoStr) (cmd : GoStr) (args : List CmdArg)
    (hnc : isCommentLine (trimSpace l) = false)
    (hj : joinLines (trimSpace l) ls = (line, cons, rest1))
    (hp : ParseLine line = .ok (cmd, args)) (hcmd : cmd ≠ [])
    (hnosep : sepLine ∉ rest1) :
    nextRecord (l :: ls) =
      .ok (l :: cons ++ rest1,
        some ({ Cmd := cmd, CmdArgs := args,
                Input := trimSpace (unlines rest1), Expected := [] }, [])) := by
  rw [nextRecord_directive l ls line cons rest1 cmd args hnc hj hp hcmd]
  unfold handleDirective
  rw [hp]
  dsimp only
  rw [readInput_noSep rest1 hnosep]
  dsimp only
  rw [if_neg (by simp)]

/-- C6 witness: a directive followed by two input lines and no separator
yields a record with the trimmed input and empty expected output. -/
theorem C6_witness :
    nextRecord [("cmd arg=1").data, ("i1").data, ("i2").data] =
      .ok ([("cmd arg=1").data, ("i1").data, ("i2").data],
        some ({ Cmd := ("cmd").data,
                CmdArgs := [⟨("arg").data, [("1").data]⟩],
                Input := trimSpace (unlines [("i1").data, ("i2").data]),
                Expected := [] }, [])) := by
  have h := C6_no_separator (("cmd arg=1").data)
    [("i1").data, ("i2").data] (("cmd arg=1").data) []
    [("i1").data, ("i2").data] (("cmd").data)
    [⟨("arg").data, [("1").data]⟩]
    (by decide) (by decide) (by rfl) (by decide) (by decide)
  exact h

/-- C7 counterexample: the line `a,b` tokenizes successfully to the
single bare token `a,b`, which does not fit the claim's identifier class
`[-a-zA-Z0-9_./]+` (no comma), so the claim's grammar would wrongly
reject it. -/
theorem C7_counterexample :
    splitDirectives (("a,b").data) = .ok [("a,b").data] ∧
    claimShapedTok (("a,b").data) = false :=
  ⟨by rfl, by decide⟩

/-- C7 (amended): every token produced by the tokenizer is a bare
identifier, `key=value`, or `key=(v1,v2,...)`, where the identifier
class is `[-a-zA-Z0-9_.,/]+` — the claim's class *plus the comma* — and
a bare value draws on `@=+/.,_-` and alphanumeric characters. -/
theorem C7_token_grammar :
    ∀ line toks, splitDirectives line = .ok toks →
      ∀ t ∈ toks, shapedTok t = true :=
  splitDirectives_ok_shaped

/-- C7 witness: the tokens `a=(1,2)` and `c,d` of the line
`a=(1,2) b c,d` fit the amended grammar. -/
theorem C7_witness :
    shapedTok (("a=(1,2)").data) = true ∧ shapedTok (("c,d").data) = true :=
  ⟨C7_token_grammar (("a=(1,2) b c,d").data)
      [("a=(1,2)").data, ("b").data, ("c,d").data] (by rfl)
      (("a=(1,2)").data) (by decide),
    C7_token_grammar (("a=(1,2) b c,d").data)
      [("a=(1,2)").data, ("b").data, ("c,d").data] (by rfl)
      (("c,d").data) (by decide)⟩

/-- C8 counterexample: `ParseLine` applied to the comment line `# hi`
returns a parse error (`#` matches no token class), not the empty
command without error. -/
theorem C8_counterexample :
    ParseLine (("# hi").data) = .error ⟨1, ("# hi").data⟩ := rfl

/-- C8 (amended): `ParseLine` on the empty line returns the empty
command with no error; in the block reader, comment lines are skipped
(echoed) before `ParseLine` is consulted and all lines are trimmed, so
blank lines reach `ParseLine` as the empty line; `ParseLine` applied
directly to a comment line fails to tokenize
(see the counterexample). -/
theorem C8_blank_comment :
    ParseLine ([] : GoStr) = .ok ([], []) ∧
    (∀ l ls, isCommentLine (trimSpace l) = true →
      nextRecord (l :: ls) = mapEmit l (nextRecord ls)) ∧
    (∀ l ls, trimSpace l = [] →
      nextRecord (l :: ls) = mapEmit l (nextRecord ls)) :=
  ⟨rfl, nextRecord_comment, nextRecord_blank⟩

/-- C8 witness: the comment-skipping clause applied to the concrete
line `# x`. -/
theorem C8_witness :
    nextRecord [("# x").data] = mapEmit (("# x").data) (nextRecord []) :=
  C8_blank_comment.2.1 (("# x").data) [] (by decide)

/-- C9: a directive line ending in the continuation backslash is joined
with the next physical line (marker stripped) before tokenizing — the
reader hands `handleDirective` exactly the joined logical line — and the
join of `foo BACKSLASH` with `bar` tokenizes to exactly the same command
and arguments as the single line `foo bar`. -/
theorem C9_continuation :
    (∀ (l1 l2 : GoStr) (ls : List GoStr) (cmd : GoStr) (args : List CmdArg),
      isCommentLine (trimSpace l1) = false →
      endsWithBS (trimSpace l1) = true →
      endsWithBS (stripBS (trimSpace l1) ++ ' ' :: trimSpace l2) = false →
      ParseLine (stripBS (trimSpace l1) ++ ' ' :: trimSpace l2) =
        .ok (cmd, args) →
      cmd ≠ [] →
      nextRecord (l1 :: l2 :: ls) =
        handleDirective [l1, l2]
          (stripBS (trimSpace l1) ++ ' ' :: trimSpace l2) ls) ∧
    ParseLine (stripBS (trimSpace (("foo \\").data)) ++
        ' ' :: trimSpace (("bar").data)) = ParseLine (("foo bar").data) := by
  constructor
  · intro l1 l2 ls cmd args hnc hbs hbs2 hp hcmd
    have hj : joinLines (trimSpace l1) (l2 :: ls) =
        (stripBS (trimSpace l1) ++ ' ' :: trimSpace l2, [l2], ls) := by
      simp only [joinLines, if_pos hbs]
      rw [joinLines_nobs _ ls hbs2]
    exact nextRecord_directive l1 (l2 :: ls) _ [l2] ls cmd args hnc hj hp hcmd
  · rfl

/-- C9 witness: the joining clause applied to the concrete lines
`foo BACKSLASH` and `bar`. -/
theorem C9_witness :
    nextRecord [("foo \\").data, ("bar").data] =
      handleDirective [("foo \\").data, ("bar").data]
        (stripBS (trimSpace (("foo \\").data)) ++
          ' ' :: trimSpace (("bar").data)) [] :=
  C9_continuation.1 (("foo \\").data) (("bar").data) [] (("foo").data)
    [⟨("bar").data, []⟩] (by decide) (by decide) (by decide) (by rfl)
    (by decide)

/-- C4 counterexample: a map entry that is not a function fails with the
message `argument is not a function`, not with the claim's single message
`function does not take and return one value`. -/
theorem C4_counterexample :
    reflectCall [("f", .notFunc)] "f" (.ok "x" "y") =
      (none, none, none, some "argument is not a function") ∧
    "argument is not a function" ≠
      "function does not take and return one value" :=
  ⟨rfl, by decide⟩

/-- C4 (amended): `reflectCall` errs exactly in these cases, with these
messages: unknown name (`driver NAME not found`); an entry that is not a
function (`argument is not a function`); a function whose arity is not
one-in one-out (`function does not take and return one value`); an error
returned by `populate`; a panic inside `populate` or the invoked
function, recovered and converted into the returned error.  In the
remaining case it returns the populated input, expectation, and the
function's result with no error. -/
theorem C4_dispatch :
    ∀ (m : List (String × DriverEntry)) (name : String) (pop : PopulateRes),
      (lookupDriver m name = none →
        reflectCall m name pop =
          (none, none, none,
            some ("driver \"" ++ name ++ "\" not found"))) ∧
      (lookupDriver m name = some .notFunc →
        reflectCall m name pop =
          (none, none, none, some "argument is not a function")) ∧
      (∀ nIn nOut body, lookupDriver m name = some (.fn nIn nOut body) →
        (nOut ≠ 1 ∨ nIn ≠ 1 →
          reflectCall m name pop =
            (none, none, none,
              some "function does not take and return one value")) ∧
        (nIn = 1 → nOut = 1 →
          (∀ msg, pop = .err msg →
            reflectCall m name pop = (none, none, none, some msg)) ∧
          (∀ msg, pop = .panics msg →
            reflectCall m name pop = (none, none, none, some msg)) ∧
          (∀ inV expV, pop = .ok inV expV →
            (∀ msg, body inV = .panics msg →
              reflectCall m name pop = (none, none, none, some msg)) ∧
            (∀ outV, body inV = .ok outV →
              reflectCall m name pop =
                (some inV, some expV, some outV, none))))) := by
  intro m name pop
  refine ⟨?_, ?_, ?_⟩
  · intro h
    unfold reflectCall
    rw [h]
  · intro h
    unfold reflectCall
    rw [h]
  · intro nIn nOut body h
    constructor
    · intro harity
      unfold reflectCall
      rw [h]
      dsimp only
      rw [if_pos harity]
    · intro h1 h2
      subst h1
      subst h2
      refine ⟨?_, ?_, ?_⟩
      · intro msg hmsg
        subst hmsg
        unfold reflectCall
        rw [h]
        dsimp only
        rw [if_neg (by simp)]
      · intro msg hmsg
        subst hmsg
        unfold reflectCall
        rw [h]
        dsimp only
        rw [if_neg (by simp)]
      · intro inV expV hpop
        subst hpop
        constructor
        · intro msg hbody
          unfold reflectCall
          rw [h]
          dsimp only
          rw [if_neg (by simp), hbody]
        · intro outV hbody
          unfold reflectCall
          rw [h]
          dsimp only
          rw [if_neg (by simp), hbody]

/-- C4 witness: a function that panics inside the call has the panic
recovered into the returned error. -/
theorem C4_witness :
    reflectCall [("f", .fn 1 1 (fun _ => .panics "boom"))] "f"
      (.ok "0" "exp") = (none, none, none, some "boom") :=
  ((((C4_dispatch [("f", .fn 1 1 (fun _ => .panics "boom"))] "f"
      (.ok "0" "exp")).2.2 1 1 (fun _ => .panics "boom")
      (by rfl)).2 rfl rfl).2.2 "0" "exp" rfl).1 "boom" rfl

/-- C5 counterexample: rewriting is not idempotent for arbitrary actual
outputs.  With two records whose actual outputs are the single lines
`----` and `B`, the first rewrite serializes the `----` output using the
single-separator form; on re-parsing, that line pairs with the section's
opening separator as a double-separator terminator, the whole rest of the
file is swallowed into the first record, and the second rewrite collapses
the file. -/
theorem C5_counterexample :
    ∃ w1 w2,
      runRewrite [['f','o','o'], sepLine, ['A'], [], ['b','a','r'], sepLine,
        ['B']] [[sepLine], [['B']]] = .ok w1 ∧
      runRewrite w1 [[sepLine], [['B']]] = .ok w2 ∧ w1 ≠ w2 := by
  refine ⟨[['f','o','o'], sepLine, sepLine, [], ['b','a','r'], sepLine,
    ['B'], []], [['f','o','o'], sepLine, sepLine, []],
    by rfl, by rfl, by decide⟩

/-- C5 (amended): the rewrite serialization is idempotent provided the
file parses, an actual output is supplied for every record, and no actual
output contains a line that is exactly the separator `----` (such a line
is re-read as a section terminator, breaking the round trip): rewriting,
re-parsing the rewritten file and rewriting it again against the same
outputs is byte-identical to the first rewrite. -/
theorem C5_rewrite_idempotent (ls : List GoStr) (recs : RecList)
    (trail : List GoStr) (outs : List (List GoStr))
    (hp : parseAll ls = .ok (recs, trail))
    (hlen : recs.length ≤ outs.length)
    (houts : ∀ o ∈ outs, sepLine ∉ o) :
    ∃ w, runRewrite ls outs = .ok w ∧ runRewrite w outs = .ok w := by
  obtain ⟨recs2, hp2, hrw⟩ := parseAll_reparse ls.length ls (le_refl _)
    recs trail hp outs hlen houts
  refine ⟨rewriteFile recs trail outs, ?_, ?_⟩
  · unfold runRewrite
    rw [hp]
    rfl
  · unfold runRewrite
    rw [hp2]
    dsimp only [Except.map]
    rw [hrw]

/-- C5 witness: a one-record file whose actual output is the single
benign line `A` rewrites to itself, and the rewrite is idempotent. -/
theorem C5_witness :
    ∃ w, runRewrite [['f','o','o'], sepLine, ['A'], []] [[['A']]] = .ok w ∧
      runRewrite w [[['A']]] = .ok w :=
  C5_rewrite_idempotent [['f','o','o'], sepLine, ['A'], []] _ _ [[['A']]]
    (by rfl) (by decide) (by decide)

/-- C10: whenever `reflectCall` returns an error, all three of its other
results are nil — no partially populated input, expectation, or output
escapes an error path. -/
theorem C10_nil_on_error :
    ∀ (m : List (String × DriverEntry)) (name : String) (pop : PopulateRes)
      (a b c : Option String) (e : String),
      reflectCall m name pop = (a, b, c, some e) →
      a = none ∧ b = none ∧ c = none := by
  intro m name pop a b c e h
  unfold reflectCall at h
  cases hl : lookupDriver m name with
  | none =>
    rw [hl] at h
    simp only [Prod.mk.injEq] at h
    exact ⟨h.1.symm, h.2.1.symm, h.2.2.1.symm⟩
  | some entry =>
    rw [hl] at h
    cases entry with
    | notFunc =>
      simp only [Prod.mk.injEq] at h
      exact ⟨h.1.symm, h.2.1.symm, h.2.2.1.symm⟩
    | fn nIn nOut body =>
      dsimp only at h
      by_cases harity : nOut ≠ 1 ∨ nIn ≠ 1
      · rw [if_pos harity] at h
        simp only [Prod.mk.injEq] at h
        exact ⟨h.1.symm, h.2.1.symm, h.2.2.1.symm⟩
      · rw [if_neg harity] at h
        cases pop with
        | err msg =>
          simp only [Prod.mk.injEq] at h
          exact ⟨h.1.symm, h.2.1.symm, h.2.2.1.symm⟩
        | panics msg =>
          simp only [Prod.mk.injEq] at h
          exact ⟨h.1.symm, h.2.1.symm, h.2.2.1.symm⟩
        | ok inV expV =>
          dsimp only at h
          cases hbody : body inV with
          | panics msg =>
            rw [hbody] at h
            simp only [Prod.mk.injEq] at h
            exact ⟨h.1.symm, h.2.1.symm, h.2.2.1.symm⟩
          | ok outV =>
            rw [hbody] at h
            simp only [Prod.mk.injEq] at h
            exact absurd h.2.2.2 (by simp)

/-- C10 witness: the unknown-name error path carries no values. -/
theorem C10_witness :
    (none : Option String) = none ∧ (none : Option String) = none ∧
      (none : Option String) = none :=
  C10_nil_on_error [] "x" (.ok "i" "e") none none none
    ("driver \"x\" not found") rfl

end Datadriven
